import Mathlib

/-!
Verification of the crossword CSP solver in `generate.py` (class `CrosswordCreator`).

The solver's collaborator `crossword.py` (class `Crossword` / `Variable`) is not part of
the sources; its data model is modelled from the specification (section 2/3): variables
are immutable slots with a starting cell, a direction and a length; the overlap relation
maps every ordered pair of distinct variables to either no overlap or a pair of offsets,
and is symmetric; `neighbors(v)` is the set of variables with a non-`None` overlap with `v`.

Python strings are modelled as `List Char`; Python's possibly-raising indexing `s[i]`
is modelled as `List.get? i` (`none` playing the role of `IndexError`), and functions in
which an `IndexError` can actually escape (`consistent`, and the search built on it)
return `Option` results, `none` meaning an uncaught exception.  Python `set`s of words
are modelled as lists considered up to membership; removing all elements failing a check
from a set while iterating over a copy is modelled by `List.filter`.
-/

/-- Modelled from the spec: the direction of a crossword slot, `across` or `down`
(`crossword.py` is not among the sources). -/
inductive Direction where
  | across
  | down
deriving DecidableEq, Repr

/-- Modelled from the spec: a crossword slot; an immutable identifier with a starting
cell `(i, j)`, a direction and a length.  Two variables are equal iff all attributes
match (`crossword.py` is not among the sources). -/
structure Variable where
  i : Nat
  j : Nat
  direction : Direction
  length : Nat
deriving DecidableEq, Repr

/-- A candidate word; Python strings are modelled as lists of characters. -/
abbrev Word := List Char

/-- An assignment: the Python dict mapping variables to words, modelled as an
insertion-ordered association list (keys are unique in every reachable state). -/
abbrev Assignment := List (Variable × Word)

/-- The domain store: for each variable, the list of still-possible words
(a Python set of strings, considered up to membership). -/
abbrev Domains := Variable → List Word

/-- Modelled from the spec: the Puzzle Model collaborator (`crossword.py`, not among
the sources).  It supplies the variables, the initial vocabulary, and the overlap
relation on ordered pairs of distinct variables. -/
structure Crossword where
  vars : List Variable
  words : List Word
  overlaps : Variable → Variable → Option (Nat × Nat)

/-- Modelled from the spec: `y` is a neighbor of `x` iff the two are distinct and their
overlap is not `None`. -/
def neighbors (cw : Crossword) (v : Variable) : List Variable :=
  cw.vars.filter (fun u => decide (u ≠ v) && (cw.overlaps v u).isSome)

/-- One pair's worth of the puzzle well-formedness condition: an overlap `(i, j)` of
`x` and `y` relates two distinct variables symmetrically (`overlaps y x = (j, i)`),
and its offsets index actual cells of both slots. -/
def overlapOK (cw : Crossword) (x y : Variable) : Prop :=
  match cw.overlaps x y with
  | none => True
  | some (i, j) => x ≠ y ∧ cw.overlaps y x = some (j, i) ∧ i < x.length ∧ j < y.length

instance (cw : Crossword) (x y : Variable) : Decidable (overlapOK cw x y) :=
  match h : cw.overlaps x y with
  | none => isTrue (by unfold overlapOK; rw [h]; trivial)
  | some (i, j) =>
    decidable_of_iff (x ≠ y ∧ cw.overlaps y x = some (j, i) ∧ i < x.length ∧ j < y.length)
      (by unfold overlapOK; rw [h])

/-- Well-formedness of the puzzle description, guaranteed by the Puzzle Model
collaborator per the spec (symmetric overlap relation on distinct variables, offsets
inside both slots). -/
def WF (cw : Crossword) : Prop :=
  ∀ x ∈ cw.vars, ∀ y ∈ cw.vars, overlapOK cw x y

instance (cw : Crossword) : Decidable (WF cw) := by
  unfold WF
  infer_instance

lemma WF_spec {cw : Crossword} (h : WF cw) {x y : Variable}
    (hx : x ∈ cw.vars) (hy : y ∈ cw.vars) {i j : Nat}
    (ho : cw.overlaps x y = some (i, j)) :
    x ≠ y ∧ cw.overlaps y x = some (j, i) ∧ i < x.length ∧ j < y.length := by
  have hxy := h x hx y hy
  unfold overlapOK at hxy
  rw [ho] at hxy
  exact hxy

/-- The keys of an assignment (the Python dict's key view, in insertion order). -/
def keysA (a : Assignment) : List Variable := a.map Prod.fst

/-- Dict lookup `assignment[v]`. -/
def lookupA (a : Assignment) (v : Variable) : Option Word :=
  (a.find? (fun e => decide (e.1 = v))).map Prod.snd

/-- Dict deletion `del assignment[v]` (removes the unique entry for `v`). -/
def eraseKey (v : Variable) (a : Assignment) : Assignment :=
  a.eraseP (fun e => decide (e.1 = v))

/-- Source `CrosswordCreator.__init__`: every variable's domain starts as a copy of the
full vocabulary. -/
def initDomains (cw : Crossword) : Domains := fun _ => cw.words

/-- Source `enforce_node_consistency`: for each variable, remove from its domain every
word whose length differs from the variable's length (iterating over a copy of the set
and removing, i.e. filtering). -/
def enforce_node_consistency (_cw : Crossword) (d : Domains) : Domains :=
  fun v => (d v).filter (fun w => decide (w.length = v.length))

/-- Source `revise`: if `x` and `y` overlap at `(i, j)`, remove from `domain[x]` every
word `wx` such that no `wy` in `domain[y]` satisfies `wy[j] == wx[i]`; return whether a
removal occurred together with the updated domain store.  With no overlap, nothing
changes and no revision is reported. -/
def revise (cw : Crossword) (d : Domains) (x y : Variable) : Bool × Domains :=
  match cw.overlaps x y with
  | none => (false, d)
  | some (i, j) =>
    let keep : Word → Bool := fun wx => (d y).any (fun wy => decide (wy.get? j = wx.get? i))
    ((d x).any (fun wx => !keep wx), fun v => if v = x then (d x).filter keep else d v)

/-- Sum of the domain sizes over the puzzle's variables (termination measure for AC-3). -/
def totalSize (cw : Crossword) (d : Domains) : Nat :=
  (cw.vars.map (fun v => (d v).length)).sum

/-- An arc of the AC-3 worklist: an ordered pair of distinct puzzle variables. -/
def Arc (cw : Crossword) : Type :=
  {p : Variable × Variable // p.1 ∈ cw.vars ∧ p.2 ∈ cw.vars ∧ p.1 ≠ p.2}

lemma mem_neighbors {cw : Crossword} {x z : Variable} (h : z ∈ neighbors cw x) :
    z ∈ cw.vars ∧ z ≠ x ∧ (cw.overlaps x z).isSome := by
  have h' := List.mem_filter.mp h
  refine ⟨h'.1, ?_, ?_⟩
  · have := h'.2
    simp only [Bool.and_eq_true, decide_eq_true_eq] at this
    exact this.1
  · have := h'.2
    simp only [Bool.and_eq_true, decide_eq_true_eq] at this
    exact this.2

/-- Source `ac3` (re-enqueueing step): after `domain[x]` shrank while treating arc
`(x, y)`, enqueue `(z, x)` for every neighbor `z` of `x` other than `y`. -/
def enqueueArcs (cw : Crossword) (x : Variable) (hx : x ∈ cw.vars) (y : Variable) :
    List (Arc cw) :=
  ((neighbors cw x).filter (fun z => decide (z ≠ y))).attach.map
    (fun z => ⟨(z.val, x),
      (mem_neighbors (List.mem_of_mem_filter z.property)).1, hx,
      (mem_neighbors (List.mem_of_mem_filter z.property)).2.1⟩)

lemma length_filter_lt_of_mem {α} {p : α → Bool} {l : List α} {x : α}
    (hx : x ∈ l) (hpx : p x = false) : (l.filter p).length < l.length := by
  induction l with
  | nil => cases hx
  | cons a t ih =>
    rcases List.mem_cons.mp hx with rfl | hx'
    · simp only [List.filter_cons, hpx]
      exact Nat.lt_succ_of_le (List.length_filter_le _ _)
    · by_cases hpa : p a = true
      · simp only [List.filter_cons, hpa, List.length_cons]
        exact Nat.succ_lt_succ (ih hx')
      · have hpa' : p a = false := by
          cases h : p a
          · rfl
          · exact absurd h hpa
        simp only [List.filter_cons, hpa']
        exact Nat.lt_succ_of_lt (ih hx')

lemma sum_map_lt {l : List Variable} {f g : Variable → Nat}
    (hle : ∀ v, f v ≤ g v) {x : Variable} (hx : x ∈ l) (hlt : f x < g x) :
    (l.map f).sum < (l.map g).sum := by
  induction l with
  | nil => cases hx
  | cons a t ih =>
    have hsumle : ∀ t' : List Variable, ((t' : List Variable).map f).sum ≤ (t'.map g).sum := by
      intro t'
      induction t' with
      | nil => simp
      | cons b t'' ih' =>
        simp only [List.map_cons, List.sum_cons]
        exact Nat.add_le_add (hle b) ih'
    rcases List.mem_cons.mp hx with rfl | hx'
    · simp only [List.map_cons, List.sum_cons]
      exact Nat.add_lt_add_of_lt_of_le hlt (hsumle t)
    · simp only [List.map_cons, List.sum_cons]
      exact Nat.add_lt_add_of_le_of_lt (hle a) (ih hx')

lemma revise_true_totalSize {cw : Crossword} {d : Domains} {x y : Variable}
    (h : (revise cw d x y).1 = true) (hx : x ∈ cw.vars) :
    totalSize cw (revise cw d x y).2 < totalSize cw d := by
  cases ho : cw.overlaps x y with
  | none => simp [revise, ho] at h
  | some p =>
    obtain ⟨i, j⟩ := p
    simp only [revise, ho] at h ⊢
    obtain ⟨wx, hmem, hfail⟩ := List.any_eq_true.mp h
    have hfail' : ((d y).any fun wy => decide (wy.get? j = wx.get? i)) = false := by
      cases hk : (d y).any fun wy => decide (wy.get? j = wx.get? i)
      · rfl
      · rw [hk] at hfail; cases hfail
    apply sum_map_lt (f := fun v => ((fun v =>
        if v = x then (d x).filter (fun wx => (d y).any fun wy => decide (wy.get? j = wx.get? i))
        else d v) v).length) (g := fun v => (d v).length) ?_ hx
    · simp only [if_pos rfl]
      exact length_filter_lt_of_mem hmem hfail'
    · intro v
      by_cases hv : v = x
      · simp only [hv, if_pos rfl]
        exact List.length_filter_le _ _
      · simp only [if_neg hv]
        exact Nat.le_refl _

lemma revise_false_totalSize {cw : Crossword} {d : Domains} {x y : Variable}
    (h : (revise cw d x y).1 = false) :
    ∀ v, ((revise cw d x y).2 v).length = (d v).length := by
  intro v
  cases ho : cw.overlaps x y with
  | none => simp [revise, ho]
  | some p =>
    obtain ⟨i, j⟩ := p
    simp only [revise, ho] at h ⊢
    by_cases hv : v = x
    · subst hv
      have hall : ∀ wx ∈ d v, ((d y).any fun wy => decide (wy.get? j = wx.get? i)) = true := by
        intro wx hwx
        have h2 := List.any_eq_false.mp h wx hwx
        cases hk : (d y).any fun wy => decide (wy.get? j = wx.get? i) with
        | false => exact absurd (by rw [hk]; rfl) h2
        | true => rfl
      have hfe : List.filter (fun wx => (d y).any fun wy => decide (wy.get? j = wx.get? i)) (d v)
          = d v := List.filter_eq_self.mpr hall
      beta_reduce
      rw [if_pos rfl, hfe]
    · simp only [if_neg hv]

lemma revise_false_totalSize' {cw : Crossword} {d : Domains} {x y : Variable}
    (h : (revise cw d x y).1 = false) :
    totalSize cw (revise cw d x y).2 = totalSize cw d := by
  unfold totalSize
  congr 1
  exact List.map_congr_left (fun v _ => revise_false_totalSize h v)

/-- Source `ac3` (worklist loop): repeatedly pop an arc, revise it, stop with failure
as soon as a revision empties the revised domain, and re-enqueue the incoming arcs of a
shrunk variable.  The Python list is used as a LIFO stack (append/pop at the same end);
the model's list head is the Python list's tail. -/
def ac3Go (cw : Crossword) (d : Domains) (arcs : List (Arc cw)) : Bool × Domains :=
  match arcs with
  | [] => (true, d)
  | arc :: rest =>
    let r := revise cw d arc.val.1 arc.val.2
    if hrev : r.1 then
      if (r.2 arc.val.1).isEmpty then (false, r.2)
      else ac3Go cw r.2 (enqueueArcs cw arc.val.1 arc.property.1 arc.val.2 ++ rest)
    else ac3Go cw r.2 rest
termination_by (totalSize cw d, arcs.length)
decreasing_by
  · apply Prod.Lex.left
    exact revise_true_totalSize hrev arc.property.1
  · have he : totalSize cw ((revise cw d arc.val.1 arc.val.2).2) = totalSize cw d :=
      revise_false_totalSize' (by simpa using hrev)
    rw [he]
    exact Prod.Lex.right _ (Nat.lt_succ_self _)

/-- Source `ac3` with its default `arcs=None`: the initial worklist holds every ordered
pair of distinct variables whose overlap is not `None` (the keys of
`crossword.overlaps` with a non-`None` value). -/
def initialArcs (cw : Crossword) : List (Arc cw) :=
  cw.vars.attach.bind (fun x =>
    ((cw.vars.filter
        (fun y => decide (x.val ≠ y) && (cw.overlaps x.val y).isSome)).attach.map
      (fun y => ⟨(x.val, y.val), x.property, (List.mem_filter.mp y.property).1,
        by
          have := (List.mem_filter.mp y.property).2
          simp only [Bool.and_eq_true, decide_eq_true_eq] at this
          exact this.1⟩)))

/-- Source `ac3()` as called from `solve` (default arc list). -/
def ac3 (cw : Crossword) (d : Domains) : Bool × Domains :=
  ac3Go cw d (initialArcs cw)

/-- Source `assignment_complete`: every puzzle variable has an assigned value. -/
def assignment_complete (cw : Crossword) (a : Assignment) : Bool :=
  cw.vars.all (fun v => decide (v ∈ keysA a))

/-- Source `consistent`, first loop: whether two entries with distinct variables carry
the identical word (the nested `for variable1 / for variable2` scan). -/
def hasDup (a : Assignment) : Bool :=
  a.any (fun e1 => a.any (fun e2 => decide (e2.1 ≠ e1.1) && decide (e2.2 = e1.2)))

/-- Source `consistent`, inner neighbor loop for one assigned variable `v` with word
`w`: scan the neighbors; an unassigned neighbor is skipped; at the first assigned
neighbor whose shared cell disagrees, stop and report `true` (a conflict, the `break`);
`none` models an `IndexError` from `assignment[...][overlap[...]]`. -/
def checkNeighbors (cw : Crossword) (a : Assignment) (v : Variable) (w : Word) :
    List Variable → Option Bool
  | [] => some false
  | u :: us =>
    match lookupA a u with
    | none => checkNeighbors cw a v w us
    | some wu =>
      match cw.overlaps v u with
      | none => checkNeighbors cw a v w us
      | some (i, j) =>
        match w.get? i, wu.get? j with
        | some c1, some c2 =>
          if c1 ≠ c2 then some true else checkNeighbors cw a v w us
        | _, _ => none

/-- Source `consistent`, second loop over the assigned variables, threading the
`is_consistent` flag: a word of the wrong length reports `False` and breaks out; a
neighbor disagreement clears the flag (the loop then moves on to the next variable). -/
def consistentGo (cw : Crossword) (a : Assignment) :
    List (Variable × Word) → Bool → Option Bool
  | [], flag => some flag
  | (v, w) :: rest, flag =>
    if v.length ≠ w.length then some false
    else
      match checkNeighbors cw a v w (neighbors cw v) with
      | none => none
      | some disag => consistentGo cw a rest (flag && !disag)

/-- Source `consistent`: `some false` iff a duplicate word, a wrong-length word or an
overlap disagreement was found, `some true` otherwise; `none` models an uncaught
`IndexError` (reachable when an assigned word is shorter than an overlap offset into
it, which requires a wrong-length word). -/
def consistent (cw : Crossword) (a : Assignment) : Option Bool :=
  consistentGo cw a a (!hasDup a)

/-- Source `order_domain_values`, elimination count of a candidate word `w` for `var`:
summed over every unassigned neighbor `u` of `var` with overlap `(p, q)`, the number
of words in `domain[u]` whose character at `q` differs from `w`'s character at `p`.
The source's guard `if variable not in assignment` compares the candidate word against
the dict's `Variable` keys and is therefore always true, and the `x, y = overlap`
unpacking never sees `None` because neighbors overlap by definition. -/
def ruleOutCount (cw : Crossword) (d : Domains) (a : Assignment) (var : Variable)
    (w : Word) : Nat :=
  (((neighbors cw var).filter (fun u => decide (u ∉ keysA a))).map (fun u =>
    match cw.overlaps var u with
    | some (p, q) => ((d u).filter (fun wu => decide (¬ w.get? p = wu.get? q))).length
    | none => 0)).sum

/-- Source `order_domain_values`: the words of `domain[var]` sorted ascending by their
elimination count (Python's stable `sorted` over the `value_ruleout` counts, modelled
by a stable insertion sort). -/
def order_domain_values (cw : Crossword) (d : Domains) (var : Variable)
    (a : Assignment) : List Word :=
  List.insertionSort
    (fun w1 w2 => ruleOutCount cw d a var w1 ≤ ruleOutCount cw d a var w2) (d var)

/-- Strict comparison of the Python tuples `(len(domain[v]), -len(neighbors(v)))` used
as the `min` key in `select_unassigned_variable` (the negated degree turns the second
component's order around). -/
def keyLt (k1 k2 : Nat × Nat) : Prop :=
  k1.1 < k2.1 ∨ (k1.1 = k2.1 ∧ k2.2 < k1.2)

instance : DecidableRel keyLt := fun k1 k2 => by unfold keyLt; infer_instance

/-- The `min` key of `select_unassigned_variable` for one candidate. -/
def selKey (cw : Crossword) (d : Domains) (v : Variable) : Nat × Nat :=
  ((d v).length, (neighbors cw v).length)

/-- Source `select_unassigned_variable`: among the variables not yet assigned (in
`self.domains` order), the first one minimizing `(len(domain[v]), -degree(v))`;
`none` models the `ValueError` of Python's `min` on an empty candidate set
(unreachable from `backtrack`, which selects only on incomplete assignments). -/
def select_unassigned_variable (cw : Crossword) (d : Domains) (a : Assignment) :
    Option Variable :=
  match cw.vars.filter (fun v => decide (v ∉ keysA a)) with
  | [] => none
  | c :: cs => some (cs.foldl (fun best v =>
      if keyLt (selKey cw d v) (selKey cw d best) then v else best) c)

/-- Number of still-unassigned puzzle variables (the termination measure of the
backtracking search). -/
def unassigned (cw : Crossword) (a : Assignment) : Nat :=
  (cw.vars.filter (fun v => decide (v ∉ keysA a))).length

lemma keysA_append (a : Assignment) (e : Variable × Word) :
    keysA (a ++ [e]) = keysA a ++ [e.1] := by
  simp [keysA]

lemma eraseKey_append {a : Assignment} {var : Variable} (hk : var ∉ keysA a) (w : Word) :
    eraseKey var (a ++ [(var, w)]) = a := by
  unfold eraseKey
  rw [List.eraseP_append_right]
  · simp
  · intro e he
    simp only [decide_eq_true_eq]
    intro hev
    exact hk (by rw [← hev]; exact List.mem_map_of_mem Prod.fst he)

lemma length_filter_mono {α} {p q : α → Bool} (l : List α)
    (himp : ∀ x, p x = true → q x = true) :
    (l.filter p).length ≤ (l.filter q).length := by
  induction l with
  | nil => simp
  | cons a t ih =>
    cases hp : p a with
    | true =>
      rw [List.filter_cons_of_pos hp, List.filter_cons_of_pos (himp a hp),
        List.length_cons, List.length_cons]
      exact Nat.succ_le_succ ih
    | false =>
      rw [List.filter_cons_of_neg (by simp [hp])]
      cases hq : q a with
      | true =>
        rw [List.filter_cons_of_pos hq, List.length_cons]
        exact Nat.le_succ_of_le ih
      | false =>
        rw [List.filter_cons_of_neg (by simp [hq])]
        exact ih

lemma length_filter_lt_of_imp {α} {p q : α → Bool} {l : List α}
    (himp : ∀ x, p x = true → q x = true) {x : α} (hx : x ∈ l)
    (hqx : q x = true) (hpx : p x = false) :
    (l.filter p).length < (l.filter q).length := by
  induction l with
  | nil => cases hx
  | cons a t ih =>
    rcases List.mem_cons.mp hx with rfl | hx'
    · rw [List.filter_cons_of_neg (by simp [hpx]), List.filter_cons_of_pos hqx,
        List.length_cons]
      exact Nat.lt_succ_of_le (length_filter_mono t himp)
    · cases hp : p a with
      | true =>
        rw [List.filter_cons_of_pos hp, List.filter_cons_of_pos (himp a hp),
          List.length_cons, List.length_cons]
        exact Nat.succ_lt_succ (ih hx')
      | false =>
        rw [List.filter_cons_of_neg (by simp [hp])]
        cases hq : q a with
        | true =>
          rw [List.filter_cons_of_pos hq, List.length_cons]
          exact Nat.lt_succ_of_lt (ih hx')
        | false =>
          rw [List.filter_cons_of_neg (by simp [hq])]
          exact ih hx'

lemma unassigned_append_lt {cw : Crossword} {a : Assignment} {var : Variable}
    (hv : var ∈ cw.vars) (hk : var ∉ keysA a) (w : Word) :
    unassigned cw (a ++ [(var, w)]) < unassigned cw a := by
  unfold unassigned
  apply length_filter_lt_of_imp (x := var) _ hv
  · simp [hk]
  · simp [keysA_append]
  · intro x hx
    simp only [decide_eq_true_eq, keysA_append] at hx ⊢
    intro hmem
    exact hx (List.mem_append_left _ hmem)

lemma foldl_choice_mem {α} (g : α → α → Prop) [DecidableRel g] (c : α) (cs : List α) :
    cs.foldl (fun best v => if g v best then v else best) c ∈ c :: cs := by
  induction cs generalizing c with
  | nil => simp
  | cons b t ih =>
    simp only [List.foldl_cons]
    by_cases hg : g b c
    · rw [if_pos hg]
      exact List.mem_cons_of_mem c (ih b)
    · rw [if_neg hg]
      rcases List.mem_cons.mp (ih c) with h | h
      · rw [h]; exact List.mem_cons_self c _
      · exact List.mem_cons_of_mem c (List.mem_cons_of_mem b h)

lemma select_unassigned_variable_mem {cw : Crossword} {d : Domains} {a : Assignment}
    {var : Variable} (h : select_unassigned_variable cw d a = some var) :
    var ∈ cw.vars ∧ var ∉ keysA a := by
  unfold select_unassigned_variable at h
  rcases hf : cw.vars.filter (fun v => decide (v ∉ keysA a)) with _ | ⟨c, cs⟩
  · rw [hf] at h; cases h
  · rw [hf] at h
    have hmem : var ∈ c :: cs := by
      have := foldl_choice_mem
        (fun v best => keyLt (selKey cw d v) (selKey cw d best)) c cs
      simp only [Option.some.injEq] at h
      rw [← h]
      exact this
    have : var ∈ cw.vars.filter (fun v => decide (v ∉ keysA a)) := by
      rw [hf]; exact hmem
    have h2 := List.mem_filter.mp this
    exact ⟨h2.1, by simpa using h2.2⟩

lemma select_unassigned_variable_isSome {cw : Crossword} {d : Domains} {a : Assignment}
    (h : assignment_complete cw a = false) :
    ∃ var, select_unassigned_variable cw d a = some var := by
  have : ∃ v ∈ cw.vars, v ∉ keysA a := by
    by_contra hall
    push_neg at hall
    have : assignment_complete cw a = true := by
      unfold assignment_complete
      rw [List.all_eq_true]
      intro v hv
      simpa using hall v hv
    rw [h] at this; cases this
  obtain ⟨v, hv, hvk⟩ := this
  unfold select_unassigned_variable
  rcases hf : cw.vars.filter (fun v => decide (v ∉ keysA a)) with _ | ⟨c, cs⟩
  · exfalso
    have : v ∈ cw.vars.filter (fun v => decide (v ∉ keysA a)) :=
      List.mem_filter.mpr ⟨hv, by simpa using hvk⟩
    rw [hf] at this
    cases this
  · exact ⟨_, rfl⟩

/-- Restoration discipline of `backtrack`'s in-place dict mutation: a failing call
leaves the assignment dict exactly as it found it, and a successful call's final dict
state is the returned (complete) assignment itself, since Python returns the mutated
dict object.  Results of shape `none` model an uncaught exception. -/
def Restores (cw : Crossword) (a : Assignment)
    (r : Option (Option Assignment × Assignment)) : Prop :=
  ∀ res a2, r = some (res, a2) →
    (res = none → a2 = a) ∧
    (∀ s, res = some s → a2 = s ∧ assignment_complete cw s = true)

/-- Source `backtrack`, the `for value in self.order_domain_values(...)` loop for the
selected variable `var`.  The dict state on entry to the loop is `a0`; `acur` is the
current dict state, and the argument `h` records that every iteration starts from the
restored state (this is what makes the faithful state threading terminate).  One
iteration: `assignment[var] = value` (appending, since `var` is unassigned); if the
extended assignment is consistent, recurse and propagate a truthy (non-empty) result;
otherwise `del assignment[var]` and move to the next value.  A falsy but non-`None`
recursion result (the empty dict) would reach `del` with `var` absent, whose
`KeyError` is modelled by `none`; an `IndexError` escaping `consistent` also yields
`none`. -/
def tryValues (cw : Crossword) (d : Domains) (var : Variable) (a0 : Assignment)
    (hv : var ∈ cw.vars) (hk : var ∉ keysA a0)
    (recur : (a1 : Assignment) → unassigned cw a1 < unassigned cw a0 →
      {r : Option (Option Assignment × Assignment) // Restores cw a1 r}) :
    (ws : List Word) → (acur : Assignment) → acur = a0 →
      {r : Option (Option Assignment × Assignment) // Restores cw a0 r}
  | [], acur, h =>
    ⟨some (none, acur), by
      subst h
      intro res a2 heq
      cases heq
      exact ⟨fun _ => rfl, fun s hs => nomatch hs⟩⟩
  | w :: ws, acur, h =>
    match consistent cw (acur ++ [(var, w)]) with
    | none => ⟨none, fun res a2 heq => nomatch heq⟩
    | some false =>
      tryValues cw d var a0 hv hk recur ws (eraseKey var (acur ++ [(var, w)]))
        (by rw [h]; exact eraseKey_append hk w)
    | some true =>
      let b := recur (acur ++ [(var, w)]) (by rw [h]; exact unassigned_append_lt hv hk w)
      match hb : b.val with
      | none => ⟨none, fun res a2 heq => nomatch heq⟩
      | some (res, a2) =>
        match res with
        | none =>
          have ha2 : a2 = acur ++ [(var, w)] := (b.property none a2 hb).1 rfl
          if hdel : var ∈ keysA a2 then
            tryValues cw d var a0 hv hk recur ws (eraseKey var a2)
              (by rw [ha2, h]; exact eraseKey_append hk w)
          else ⟨none, fun res a2 heq => nomatch heq⟩
        | some r =>
          if hr : r.isEmpty then
            if hdel : var ∈ keysA a2 then
              absurd hdel (by
                have hempty : r = [] := by
                  cases r
                  · rfl
                  · cases hr
                have := ((b.property (some r) a2 hb).2 r rfl).1
                rw [this, hempty]
                intro hmem
                cases hmem)
            else ⟨none, fun res a2 heq => nomatch heq⟩
          else
            ⟨some (some r, a2), by
              intro res' a2' heq
              cases heq
              refine ⟨(fun hc => nomatch hc), fun s hs => ?_⟩
              cases hs
              exact (b.property (some r) a2 hb).2 r rfl⟩

/-- Source `backtrack`, modelling the in-place mutation of the single shared dict by
explicit state passing: the result pairs Python's return value with the dict's final
state, and `none` models an uncaught exception.  The bundled `Restores` invariant is
the undo discipline itself, needed for the faithful state threading to terminate. -/
def backtrackS (cw : Crossword) (d : Domains) (a : Assignment) :
    {r : Option (Option Assignment × Assignment) // Restores cw a r} :=
  if hc : assignment_complete cw a = true then
    ⟨some (some a, a), by
      intro res a2 heq
      cases heq
      exact ⟨(fun hcontra => nomatch hcontra), fun s hs => by cases hs; exact ⟨rfl, hc⟩⟩⟩
  else
    match hs : select_unassigned_variable cw d a with
    | none => ⟨none, fun res a2 heq => nomatch heq⟩
    | some var =>
      tryValues cw d var a (select_unassigned_variable_mem hs).1
        (select_unassigned_variable_mem hs).2
        (fun a1 hlt => backtrackS cw d a1)
        (order_domain_values cw d var a) a rfl
termination_by unassigned cw a
decreasing_by exact hlt

/-- The domain store as `solve` leaves it: node consistency, then AC-3 (whose Boolean
result `solve` ignores); `backtrack` only reads the domains. -/
def solveDomains (cw : Crossword) : Domains :=
  (ac3 cw (enforce_node_consistency cw (initDomains cw))).2

/-- Source `solve`: enforce node and arc consistency, then backtrack from the empty
assignment.  The outer `Option` models an uncaught exception; the inner one is the
source's return value (`None` meaning no solution). -/
def solve (cw : Crossword) : Option (Option Assignment) :=
  ((backtrackS cw (solveDomains cw) []).val).map Prod.fst

/-- The spec's standing domain invariant (section 3): after node consistency, every
word in `domain[v]` has length `v.length`.  Theorems about the engine's inner
operations are stated under it; on such states the `List.get?` reading of Python's
character indexing coincides with Python's actual (in-bounds) indexing. -/
def lengthOk (cw : Crossword) (d : Domains) : Prop :=
  ∀ v ∈ cw.vars, ∀ w ∈ d v, w.length = v.length

instance (cw : Crossword) (d : Domains) : Decidable (lengthOk cw d) := by
  unfold lengthOk
  infer_instance

/-- Example slot: across at cell (0, 0), two letters. -/
def vA : Variable := ⟨0, 0, Direction.across, 2⟩

/-- Example slot: down at cell (0, 1), two letters. -/
def vB : Variable := ⟨0, 1, Direction.down, 2⟩

/-- A two-slot example puzzle: `vA`'s second cell is `vB`'s first. -/
def exCw : Crossword where
  vars := [vA, vB]
  words := [['a', 'b'], ['b', 'c'], ['c', 'a']]
  overlaps := fun x y =>
    if x = vA ∧ y = vB then some (1, 0)
    else if x = vB ∧ y = vA then some (0, 1)
    else none

/-- An example domain store for `exCw` containing only well-sized words. -/
def exD : Domains :=
  fun v => if v = vA then [['a', 'b'], ['c', 'a']] else if v = vB then [['b', 'c']] else []

/-- C6.  Node consistency filter: after the domains are initialized from the
vocabulary and `enforce_node_consistency` runs, the domain of every puzzle variable
`v` contains exactly the vocabulary words whose length equals `v.length`. -/
theorem claim_C6_node_consistency (cw : Crossword) (v : Variable) (hv : v ∈ cw.vars)
    (w : Word) :
    w ∈ enforce_node_consistency cw (initDomains cw) v ↔
      w ∈ cw.words ∧ w.length = v.length := by
  simp [enforce_node_consistency, initDomains]

theorem claim_C6_witness :
    vA ∈ exCw.vars ∧
      (['a', 'b'] ∈ enforce_node_consistency exCw (initDomains exCw) vA ↔
        ['a', 'b'] ∈ exCw.words ∧ (['a', 'b'] : Word).length = vA.length) :=
  ⟨by decide, claim_C6_node_consistency exCw vA (by decide) ['a', 'b']⟩

/-- C7.  Revise specification and monotonicity, on well-formed puzzles and domain
stores satisfying the standing length invariant: `revise x y` keeps in `domain[x]`
exactly the words with a supporting word in `domain[y]` at the overlap, reports `true`
iff a removal occurred, never adds an element to any domain, never changes
`domain[y]`, and is a reported no-op when `x` and `y` do not overlap. -/
theorem claim_C7_revise (cw : Crossword) (d : Domains) (x y : Variable)
    (hwf : WF cw) (hx : x ∈ cw.vars) (hy : y ∈ cw.vars) (hlen : lengthOk cw d) :
    (∀ i j, cw.overlaps x y = some (i, j) →
      ∀ w, w ∈ (revise cw d x y).2 x ↔
        w ∈ d x ∧ ∃ wy ∈ d y, wy.get? j = w.get? i) ∧
    ((revise cw d x y).1 = true ↔ ∃ w ∈ d x, w ∉ (revise cw d x y).2 x) ∧
    ((revise cw d x y).2 y = d y) ∧
    (∀ v w, w ∈ (revise cw d x y).2 v → w ∈ d v) ∧
    (cw.overlaps x y = none → (revise cw d x y).1 = false ∧ (revise cw d x y).2 = d) := by
  cases ho : cw.overlaps x y with
  | none =>
    refine ⟨?_, ?_, ?_, ?_, ?_⟩
    · intro i j hsome
      cases hsome
    · simp [revise, ho]
    · simp [revise, ho]
    · simp [revise, ho]
    · intro _; simp [revise, ho]
  | some p =>
    obtain ⟨i0, j0⟩ := p
    have hne : x ≠ y := (WF_spec hwf hx hy ho).1
    refine ⟨?_, ?_, ?_, ?_, ?_⟩
    · intro i j hsome w
      injection hsome with hp
      injection hp with hi hj
      subst hi; subst hj
      simp [revise, ho, List.mem_filter, List.any_eq_true]
    · simp only [revise, ho]
      constructor
      · intro h
        obtain ⟨wx, hwx, hfail⟩ := List.any_eq_true.mp h
        refine ⟨wx, hwx, ?_⟩
        intro hcon
        rw [Bool.not_eq_true'] at hfail
        have hmem := (List.mem_filter.mp hcon).2
        rw [hfail] at hmem
        cases hmem
      · rintro ⟨w, hw, hnot⟩
        apply List.any_eq_true.mpr
        refine ⟨w, hw, ?_⟩
        rw [Bool.not_eq_true']
        cases hk : (d y).any fun wy => decide (wy.get? j0 = w.get? i0) with
        | false => rfl
        | true => exact absurd (List.mem_filter.mpr ⟨hw, hk⟩) hnot
    · simp only [revise, ho]
      rw [if_neg (Ne.symm hne)]
    · intro v w
      simp only [revise, ho]
      by_cases hv : v = x
      · subst hv
        rw [if_pos rfl]
        exact List.mem_of_mem_filter
      · rw [if_neg hv]
        exact id
    · intro hnone
      cases hnone

theorem claim_C7_witness :
    WF exCw ∧ lengthOk exCw exD ∧ ((revise exCw exD vA vB).2 vB = exD vB) :=
  ⟨by decide, by decide,
    (claim_C7_revise exCw exD vA vB (by decide) (by decide) (by decide) (by decide)).2.2.1⟩

/-- C8.  Least-constraining-value ordering: for every variable `var` and assignment
whose every neighbor of `var` actually overlaps `var`, `order_domain_values` returns
exactly the words of `domain[var]` (as a permutation), in ascending order of the
elimination count `ruleOutCount` (the sum, over unassigned neighbors `u` with overlap
`(p, q)`, of the number of words in `domain[u]` whose character at `q` differs from
the candidate's character at `p`). -/
theorem claim_C8_order_domain_values (cw : Crossword) (d : Domains) (var : Variable)
    (a : Assignment) (hnb : ∀ u ∈ neighbors cw var, (cw.overlaps var u).isSome) :
    (order_domain_values cw d var a).Perm (d var) ∧
    List.Pairwise
      (fun w1 w2 => ruleOutCount cw d a var w1 ≤ ruleOutCount cw d a var w2)
      (order_domain_values cw d var a) := by
  constructor
  · exact List.perm_insertionSort _ _
  · haveI ht : IsTotal Word
        (fun w1 w2 => ruleOutCount cw d a var w1 ≤ ruleOutCount cw d a var w2) :=
      ⟨fun a b => Nat.le_total _ _⟩
    haveI htr : IsTrans Word
        (fun w1 w2 => ruleOutCount cw d a var w1 ≤ ruleOutCount cw d a var w2) :=
      ⟨fun a b c hab hbc => Nat.le_trans hab hbc⟩
    exact List.sorted_insertionSort _ _

theorem claim_C8_witness :
    (∀ u ∈ neighbors exCw vA, (exCw.overlaps vA u).isSome) ∧
    (order_domain_values exCw exD vA []).Perm (exD vA) :=
  ⟨by decide, (claim_C8_order_domain_values exCw exD vA [] (by decide)).1⟩

lemma lookupA_of_mem_nodup {a : Assignment} (hnd : (keysA a).Nodup)
    {e : Variable × Word} (he : e ∈ a) : lookupA a e.1 = some e.2 := by
  induction a with
  | nil => cases he
  | cons f t ih =>
    rcases List.mem_cons.mp he with rfl | he'
    · simp [lookupA]
    · have hne : f.1 ≠ e.1 := by
        intro hfe
        have : e.1 ∈ keysA t := List.mem_map_of_mem Prod.fst he'
        rw [← hfe] at this
        exact (List.nodup_cons.mp hnd).1 this
      have ht : (keysA t).Nodup := (List.nodup_cons.mp hnd).2
      unfold lookupA at ih ⊢
      rw [List.find?_cons_of_neg _ (by simpa using hne)]
      exact ih ht he'

lemma lookupA_some_mem {a : Assignment} {u : Variable} {wu : Word}
    (h : lookupA a u = some wu) : (u, wu) ∈ a := by
  unfold lookupA at h
  rcases hf : a.find? (fun e => decide (e.1 = u)) with _ | e
  · rw [hf] at h; cases h
  · rw [hf] at h
    have hmem := List.mem_of_find?_eq_some hf
    have hpred := List.find?_some hf
    simp only [decide_eq_true_eq] at hpred
    have h2 : e.2 = wu := by simpa using h
    have : e = (u, wu) := by
      obtain ⟨e1, e2⟩ := e
      dsimp only at hpred h2
      rw [hpred, h2]
    rw [← this]
    exact hmem

lemma checkNeighbors_false {cw : Crossword} {a : Assignment} {v : Variable} {w : Word}
    {us : List Variable} (h : checkNeighbors cw a v w us = some false) :
    ∀ u ∈ us, ∀ wu, lookupA a u = some wu → ∀ i j, cw.overlaps v u = some (i, j) →
      ∃ c, w.get? i = some c ∧ wu.get? j = some c := by
  induction us with
  | nil => intro u hu; cases hu
  | cons u' us' ih =>
    intro u hu wu hlu i j ho
    rcases List.mem_cons.mp hu with rfl | hu'
    · simp only [checkNeighbors, hlu, ho] at h
      rcases hg1 : w.get? i with _ | c1
      · simp only [hg1] at h; cases h
      · rcases hg2 : wu.get? j with _ | c2
        · simp only [hg1, hg2] at h; cases h
        · simp only [hg1, hg2] at h
          by_cases hc : c1 = c2
          · exact ⟨c1, rfl, by rw [hc]⟩
          · rw [if_pos hc] at h; cases h
    · have hrest : checkNeighbors cw a v w us' = some false := by
        simp only [checkNeighbors] at h
        rcases hlu' : lookupA a u' with _ | wu'
        · simp only [hlu'] at h; exact h
        · simp only [hlu'] at h
          rcases ho' : cw.overlaps v u' with _ | p
          · simp only [ho'] at h; exact h
          · obtain ⟨i', j'⟩ := p
            simp only [ho'] at h
            rcases hg1 : w.get? i' with _ | c1
            · simp only [hg1] at h; cases h
            · rcases hg2 : wu'.get? j' with _ | c2
              · simp only [hg1, hg2] at h; cases h
              · simp only [hg1, hg2] at h
                by_cases hc : c1 ≠ c2
                · rw [if_pos hc] at h; cases h
                · rw [if_neg hc] at h; exact h
      exact ih hrest u hu' wu hlu i j ho

lemma checkNeighbors_true {cw : Crossword} {a : Assignment} {v : Variable} {w : Word}
    {us : List Variable} (h : checkNeighbors cw a v w us = some true) :
    ∃ u ∈ us, ∃ wu, lookupA a u = some wu ∧ ∃ i j, cw.overlaps v u = some (i, j) ∧
      ∃ c1 c2, w.get? i = some c1 ∧ wu.get? j = some c2 ∧ c1 ≠ c2 := by
  induction us with
  | nil => simp [checkNeighbors] at h
  | cons u' us' ih =>
    simp only [checkNeighbors] at h
    rcases hlu' : lookupA a u' with _ | wu'
    · simp only [hlu'] at h
      obtain ⟨u, hu, rest⟩ := ih h
      exact ⟨u, List.mem_cons_of_mem _ hu, rest⟩
    · simp only [hlu'] at h
      rcases ho' : cw.overlaps v u' with _ | p
      · simp only [ho'] at h
        obtain ⟨u, hu, rest⟩ := ih h
        exact ⟨u, List.mem_cons_of_mem _ hu, rest⟩
      · obtain ⟨i', j'⟩ := p
        simp only [ho'] at h
        rcases hg1 : w.get? i' with _ | c1
        · simp only [hg1] at h; cases h
        · rcases hg2 : wu'.get? j' with _ | c2
          · simp only [hg1, hg2] at h; cases h
          · simp only [hg1, hg2] at h
            by_cases hc : c1 ≠ c2
            · exact ⟨u', List.mem_cons_self _ _, wu', hlu', i', j', ho', c1, c2, hg1, hg2, hc⟩
            · rw [if_neg hc] at h
              obtain ⟨u, hu, rest⟩ := ih h
              exact ⟨u, List.mem_cons_of_mem _ hu, rest⟩

lemma checkNeighbors_isSome {cw : Crossword} {a : Assignment} {v : Variable} {w : Word}
    {us : List Variable}
    (hinb : ∀ u ∈ us, ∀ wu, lookupA a u = some wu → ∀ i j, cw.overlaps v u = some (i, j) →
      i < w.length ∧ j < wu.length) :
    (checkNeighbors cw a v w us).isSome = true := by
  induction us with
  | nil => simp [checkNeighbors]
  | cons u' us' ih =>
    have ih' := ih (fun u hu => hinb u (List.mem_cons_of_mem _ hu))
    simp only [checkNeighbors]
    rcases hlu' : lookupA a u' with _ | wu'
    · exact ih'
    · rcases ho' : cw.overlaps v u' with _ | p
      · exact ih'
      · obtain ⟨i', j'⟩ := p
        have hb := hinb u' (List.mem_cons_self _ _) wu' hlu' i' j' ho'
        have hg1 : w.get? i' = some (w.get ⟨i', hb.1⟩) := List.get?_eq_get hb.1
        have hg2 : wu'.get? j' = some (wu'.get ⟨j', hb.2⟩) := List.get?_eq_get hb.2
        simp only [hg1, hg2]
        by_cases hc : w.get ⟨i', hb.1⟩ ≠ wu'.get ⟨j', hb.2⟩
        · rw [if_pos hc]; rfl
        · rw [if_neg hc]; exact ih'

lemma checkNeighbors_of_agree {cw : Crossword} {a : Assignment} {v : Variable} {w : Word}
    {us : List Variable}
    (hok : ∀ u ∈ us, ∀ wu, lookupA a u = some wu → ∀ i j, cw.overlaps v u = some (i, j) →
      ∃ c, w.get? i = some c ∧ wu.get? j = some c) :
    checkNeighbors cw a v w us = some false := by
  induction us with
  | nil => simp [checkNeighbors]
  | cons u' us' ih =>
    have ih' := ih (fun u hu => hok u (List.mem_cons_of_mem _ hu))
    simp only [checkNeighbors]
    rcases hlu' : lookupA a u' with _ | wu'
    · exact ih'
    · rcases ho' : cw.overlaps v u' with _ | p
      · exact ih'
      · obtain ⟨i', j'⟩ := p
        obtain ⟨c, hg1, hg2⟩ := hok u' (List.mem_cons_self _ _) wu' hlu' i' j' ho'
        simp only [hg1, hg2]
        rw [if_neg (by simp)]
        exact ih'

lemma hasDup_eq_false_iff (a : Assignment) :
    hasDup a = false ↔ ∀ e1 ∈ a, ∀ e2 ∈ a, e1.1 ≠ e2.1 → e1.2 ≠ e2.2 := by
  rw [← Bool.not_eq_true]
  unfold hasDup
  simp only [List.any_eq_true, Bool.and_eq_true, decide_eq_true_eq]
  push_neg
  constructor
  · intro h e1 h1 e2 h2 hne
    exact h e2 h2 e1 h1 hne
  · intro h e1 h1 e2 h2 hne
    exact h e2 h2 e1 h1 hne

lemma hasDup_eq_true_iff (a : Assignment) :
    hasDup a = true ↔ ∃ e1 ∈ a, ∃ e2 ∈ a, e1.1 ≠ e2.1 ∧ e1.2 = e2.2 := by
  unfold hasDup
  simp only [List.any_eq_true, Bool.and_eq_true, decide_eq_true_eq]
  constructor
  · rintro ⟨e1, h1, e2, h2, hne, heq⟩
    exact ⟨e2, h2, e1, h1, hne, heq⟩
  · rintro ⟨e1, h1, e2, h2, hne, heq⟩
    exact ⟨e2, h2, e1, h1, hne, heq⟩

lemma consistentGo_true {cw : Crossword} {a : Assignment} :
    ∀ entries flag, consistentGo cw a entries flag = some true →
      flag = true ∧ ∀ e ∈ entries, e.2.length = e.1.length ∧
        checkNeighbors cw a e.1 e.2 (neighbors cw e.1) = some false := by
  intro entries
  induction entries with
  | nil =>
    intro flag h
    simp only [consistentGo, Option.some.injEq] at h
    exact ⟨h, fun e he => absurd he (List.not_mem_nil e)⟩
  | cons f rest ih =>
    intro flag h
    obtain ⟨v, w⟩ := f
    simp only [consistentGo] at h
    by_cases hlen : v.length ≠ w.length
    · rw [if_pos hlen] at h; cases h
    · rw [if_neg hlen] at h
      rcases hcn : checkNeighbors cw a v w (neighbors cw v) with _ | disag
      · simp only [hcn] at h; cases h
      · simp only [hcn] at h
        obtain ⟨hf, hrest⟩ := ih _ h
        simp only [Bool.and_eq_true] at hf
        obtain ⟨hflag, hdisag⟩ := hf
        have hdf : disag = false := by
          cases disag
          · rfl
          · cases hdisag
        constructor
        · exact hflag
        · intro e he
          rcases List.mem_cons.mp he with rfl | he'
          · exact ⟨(not_not.mp hlen).symm, by rw [hcn, hdf]⟩
          · exact hrest e he'

lemma consistentGo_value {cw : Crossword} {a : Assignment} :
    ∀ entries flag,
      (∀ e ∈ entries, (checkNeighbors cw a e.1 e.2 (neighbors cw e.1)).isSome = true) →
      consistentGo cw a entries flag =
        some (flag && entries.all (fun e => decide (e.2.length = e.1.length) &&
          decide (checkNeighbors cw a e.1 e.2 (neighbors cw e.1) = some false))) := by
  intro entries
  induction entries with
  | nil => intro flag h; simp [consistentGo]
  | cons f rest ih =>
    intro flag h
    obtain ⟨v, w⟩ := f
    simp only [consistentGo]
    by_cases hlen : v.length ≠ w.length
    · rw [if_pos hlen]
      have hld : decide (w.length = v.length) = false := by
        simp only [decide_eq_false_iff_not]
        exact fun hh => hlen hh.symm
      simp [List.all_cons, hld]
    · rw [if_neg hlen]
      have hcn := h (v, w) (List.mem_cons_self _ _)
      rcases hcn2 : checkNeighbors cw a v w (neighbors cw v) with _ | disag
      · rw [hcn2] at hcn; cases hcn
      · simp only [hcn2]
        rw [ih (flag && !disag) (fun e he => h e (List.mem_cons_of_mem _ he))]
        have hld : decide (w.length = v.length) = true := by
          simp only [decide_eq_true_eq]
          exact (not_not.mp hlen).symm
        have hdd : decide ((some disag : Option Bool) = some false) = !disag := by
          cases disag <;> simp
        simp [List.all_cons, hld, hcn2, hdd, Bool.and_assoc]

/-- The three assignment invariants of spec section 3, in propositional form: distinct
variables carry distinct words, every word has its variable's length, and every
overlapping assigned pair agrees at the shared cell (character access via
`List.get?`). -/
def ConsProp (cw : Crossword) (a : Assignment) : Prop :=
  (∀ e1 ∈ a, ∀ e2 ∈ a, e1.1 ≠ e2.1 → e1.2 ≠ e2.2) ∧
  (∀ e ∈ a, e.2.length = e.1.length) ∧
  (∀ e1 ∈ a, ∀ e2 ∈ a, ∀ i j, cw.overlaps e1.1 e2.1 = some (i, j) →
    e1.2.get? i = e2.2.get? j)

/-- One pair's worth of the in-bounds condition for the character accesses of
`consistent`: the overlap offsets of two assigned variables fall inside both assigned
words.  It holds in particular whenever the assigned words have their variables'
lengths (on well-formed puzzles). -/
def pairInBounds (cw : Crossword) (e1 e2 : Variable × Word) : Prop :=
  match cw.overlaps e1.1 e2.1 with
  | none => True
  | some (i, j) => i < e1.2.length ∧ j < e2.2.length

instance (cw : Crossword) (e1 e2 : Variable × Word) : Decidable (pairInBounds cw e1 e2) :=
  match h : cw.overlaps e1.1 e2.1 with
  | none => isTrue (by unfold pairInBounds; rw [h]; trivial)
  | some (i, j) =>
    decidable_of_iff (i < e1.2.length ∧ j < e2.2.length)
      (by unfold pairInBounds; rw [h])

/-- The in-bounds condition over all assigned pairs. -/
def InBounds (cw : Crossword) (a : Assignment) : Prop :=
  ∀ e1 ∈ a, ∀ e2 ∈ a, pairInBounds cw e1 e2

instance (cw : Crossword) (a : Assignment) : Decidable (InBounds cw a) := by
  unfold InBounds
  infer_instance

lemma InBounds_spec {cw : Crossword} {a : Assignment} (h : InBounds cw a)
    {e1 e2 : Variable × Word} (h1 : e1 ∈ a) (h2 : e2 ∈ a) {i j : Nat}
    (ho : cw.overlaps e1.1 e2.1 = some (i, j)) :
    i < e1.2.length ∧ j < e2.2.length := by
  have hp := h e1 h1 e2 h2
  unfold pairInBounds at hp
  rw [ho] at hp
  exact hp

lemma consistent_true_ConsProp {cw : Crossword} {a : Assignment} (hwf : WF cw)
    (hkeys : ∀ e ∈ a, e.1 ∈ cw.vars) (hnd : (keysA a).Nodup)
    (h : consistent cw a = some true) : ConsProp cw a := by
  unfold consistent at h
  obtain ⟨hflag, hall⟩ := consistentGo_true a (!hasDup a) h
  have hdup : hasDup a = false := by
    cases hd : hasDup a
    · rfl
    · rw [hd] at hflag; cases hflag
  refine ⟨(hasDup_eq_false_iff a).mp hdup, fun e he => (hall e he).1, ?_⟩
  intro e1 h1 e2 h2 i j ho
  have hv1 := hkeys e1 h1
  have hv2 := hkeys e2 h2
  have hspec := WF_spec hwf hv1 hv2 ho
  have hnb : e2.1 ∈ neighbors cw e1.1 := by
    apply List.mem_filter.mpr
    refine ⟨hv2, ?_⟩
    simp only [Bool.and_eq_true, decide_eq_true_eq, ho, Option.isSome_some]
    exact ⟨fun hh => hspec.1 hh.symm, trivial⟩
  have hlk : lookupA a e2.1 = some e2.2 := lookupA_of_mem_nodup hnd h2
  obtain ⟨c, hc1, hc2⟩ := checkNeighbors_false (hall e1 h1).2 e2.1 hnb e2.2 hlk i j ho
  rw [hc1, hc2]

lemma ConsProp_checkNeighbors_isSome {cw : Crossword} {a : Assignment} (hwf : WF cw)
    (hkeys : ∀ e ∈ a, e.1 ∈ cw.vars) (hlen : ∀ e ∈ a, e.2.length = e.1.length)
    {e : Variable × Word} (he : e ∈ a) :
    (checkNeighbors cw a e.1 e.2 (neighbors cw e.1)).isSome = true := by
  apply checkNeighbors_isSome
  intro u hu wu hlu i j ho
  have hmem : (u, wu) ∈ a := lookupA_some_mem hlu
  have hspec := WF_spec hwf (hkeys e he) (hkeys (u, wu) hmem) ho
  constructor
  · rw [hlen e he]; exact hspec.2.2.1
  · rw [hlen (u, wu) hmem]; exact hspec.2.2.2

lemma ConsProp_consistent_true {cw : Crossword} {a : Assignment} (hwf : WF cw)
    (hkeys : ∀ e ∈ a, e.1 ∈ cw.vars) (hnd : (keysA a).Nodup)
    (hc : ConsProp cw a) : consistent cw a = some true := by
  unfold consistent
  have hiso : ∀ e ∈ a, (checkNeighbors cw a e.1 e.2 (neighbors cw e.1)).isSome = true :=
    fun e he => ConsProp_checkNeighbors_isSome hwf hkeys hc.2.1 he
  rw [consistentGo_value a (!hasDup a) hiso]
  have h1 : hasDup a = false := by
    cases hd : hasDup a
    · rfl
    · exfalso
      obtain ⟨e1, he1, e2, he2, hne, heq⟩ := (hasDup_eq_true_iff a).mp hd
      exact hc.1 e1 he1 e2 he2 hne heq
  have h2 : a.all (fun e => decide (e.2.length = e.1.length) &&
      decide (checkNeighbors cw a e.1 e.2 (neighbors cw e.1) = some false)) = true := by
    apply List.all_eq_true.mpr
    intro e he
    have hcn : checkNeighbors cw a e.1 e.2 (neighbors cw e.1) = some false := by
      apply checkNeighbors_of_agree
      intro u hu wu hlu i j ho
      have hmem : (u, wu) ∈ a := lookupA_some_mem hlu
      have hspec := WF_spec hwf (hkeys e he) (hkeys (u, wu) hmem) ho
      have hib : i < e.2.length := by rw [hc.2.1 e he]; exact hspec.2.2.1
      have hagok := hc.2.2 e he (u, wu) hmem i j ho
      refine ⟨e.2.get ⟨i, hib⟩, List.get?_eq_get hib, ?_⟩
      rw [← hagok]
      exact List.get?_eq_get hib
    rw [hcn]
    simp [hc.2.1 e he]
  rw [h1, h2]
  rfl

lemma consistent_value_of_InBounds {cw : Crossword} {a : Assignment}
    (hib : InBounds cw a) :
    consistent cw a = some ((!hasDup a) && a.all (fun e =>
      decide (e.2.length = e.1.length) &&
      decide (checkNeighbors cw a e.1 e.2 (neighbors cw e.1) = some false))) := by
  unfold consistent
  apply consistentGo_value
  intro e he
  apply checkNeighbors_isSome
  intro u hu wu hlu i j ho
  exact InBounds_spec hib he (lookupA_some_mem hlu) ho

lemma all_eq_false_of_mem {α} {q : α → Bool} {l : List α} {x : α}
    (hx : x ∈ l) (hqx : q x = false) : l.all q = false := by
  cases hall : l.all q with
  | false => rfl
  | true =>
    have := List.all_eq_true.mp hall x hx
    rw [hqx] at this
    cases this

/-- C5 (amended).  On well-formed puzzles and assignments over the puzzle's variables
whose overlap offsets land inside both assigned words (`InBounds` — in particular any
assignment of correctly sized words), `consistent` returns `False` iff two distinct
assigned variables share a word, some assigned word has the wrong length, or two
assigned overlapping variables disagree at the shared cell.  The restriction to
`InBounds` is forced by `claim_C5_counterexample`: outside it `consistent` can raise
`IndexError` instead of returning `False`. -/
theorem claim_C5_consistent (cw : Crossword) (a : Assignment) (hwf : WF cw)
    (hkeys : ∀ e ∈ a, e.1 ∈ cw.vars) (hnd : (keysA a).Nodup) (hib : InBounds cw a) :
    consistent cw a = some false ↔
      ((∃ e1 ∈ a, ∃ e2 ∈ a, e1.1 ≠ e2.1 ∧ e1.2 = e2.2) ∨
       (∃ e ∈ a, e.2.length ≠ e.1.length) ∨
       (∃ e1 ∈ a, ∃ e2 ∈ a, ∃ i j, cw.overlaps e1.1 e2.1 = some (i, j) ∧
         e1.2.get? i ≠ e2.2.get? j)) := by
  have hval := consistent_value_of_InBounds hib
  rw [hval]
  simp only [Option.some.injEq]
  constructor
  · intro hB
    cases hd : hasDup a with
    | true => exact Or.inl ((hasDup_eq_true_iff a).mp hd)
    | false =>
      rw [hd] at hB
      simp only [Bool.not_false, Bool.true_and] at hB
      have hex : ∃ e ∈ a, ¬ (decide (e.2.length = e.1.length) &&
          decide (checkNeighbors cw a e.1 e.2 (neighbors cw e.1) = some false)) = true := by
        by_contra hcon
        push_neg at hcon
        rw [List.all_eq_true.mpr hcon] at hB
        cases hB
      obtain ⟨e, he, hqe⟩ := hex
      cases hql : decide (e.2.length = e.1.length) with
      | false =>
        refine Or.inr (Or.inl ⟨e, he, ?_⟩)
        simpa using hql
      | true =>
        have hcnf : decide (checkNeighbors cw a e.1 e.2 (neighbors cw e.1) = some false)
            = false := by
          cases hq2 : decide (checkNeighbors cw a e.1 e.2 (neighbors cw e.1) = some false)
          · rfl
          · exact absurd (by rw [hql, hq2]; rfl) hqe
        have hne : checkNeighbors cw a e.1 e.2 (neighbors cw e.1) ≠ some false := by
          simpa using hcnf
        have hiso : (checkNeighbors cw a e.1 e.2 (neighbors cw e.1)).isSome = true := by
          apply checkNeighbors_isSome
          intro u hu wu hlu i j ho
          exact InBounds_spec hib he (lookupA_some_mem hlu) ho
        have htrue : checkNeighbors cw a e.1 e.2 (neighbors cw e.1) = some true := by
          rcases hcc : checkNeighbors cw a e.1 e.2 (neighbors cw e.1) with _ | b
          · rw [hcc] at hiso; cases hiso
          · cases b
            · exact absurd hcc hne
            · rfl
        obtain ⟨u, hu, wu, hlu, i, j, ho, c1, c2, hg1, hg2, hcne⟩ :=
          checkNeighbors_true htrue
        refine Or.inr (Or.inr ⟨e, he, (u, wu), lookupA_some_mem hlu, i, j, ho, ?_⟩)
        rw [hg1, hg2]
        intro hcon
        injection hcon with hcc
        exact hcne hcc
  · intro hv
    rcases hv with ⟨e1, h1, e2, h2, hne, heq⟩ | ⟨e, he, hlb⟩ | ⟨e1, h1, e2, h2, i, j, ho, hneq⟩
    · rw [(hasDup_eq_true_iff a).mpr ⟨e1, h1, e2, h2, hne, heq⟩]
      rfl
    · rw [all_eq_false_of_mem he (by simp [hlb])]
      exact Bool.and_false _
    · have hq1 : (decide (e1.2.length = e1.1.length) &&
          decide (checkNeighbors cw a e1.1 e1.2 (neighbors cw e1.1) = some false))
          = false := by
        have hcnf : checkNeighbors cw a e1.1 e1.2 (neighbors cw e1.1) ≠ some false := by
          intro hcn
          have hv1 := hkeys e1 h1
          have hv2 := hkeys e2 h2
          have hspec := WF_spec hwf hv1 hv2 ho
          have hnb : e2.1 ∈ neighbors cw e1.1 := by
            apply List.mem_filter.mpr
            refine ⟨hv2, ?_⟩
            simp only [Bool.and_eq_true, decide_eq_true_eq, ho, Option.isSome_some]
            exact ⟨fun hh => hspec.1 hh.symm, trivial⟩
          have hlk : lookupA a e2.1 = some e2.2 := lookupA_of_mem_nodup hnd h2
          obtain ⟨c, hc1, hc2⟩ := checkNeighbors_false hcn e2.1 hnb e2.2 hlk i j ho
          exact hneq (by rw [hc1, hc2])
        have : decide (checkNeighbors cw a e1.1 e1.2 (neighbors cw e1.1) = some false)
            = false := by simpa using hcnf
        rw [this]
        exact Bool.and_false _
      rw [all_eq_false_of_mem h1 hq1]
      exact Bool.and_false _

/-- Assignment used for the C5 counterexample: `vB` carries a well-sized word, `vA` a
one-letter word shorter than the overlap offset into it. -/
def exBadA : Assignment := [(vB, ['b', 'c']), (vA, ['a'])]

/-- C5 (counterexample to the claim as stated).  The assignment `exBadA` assigns `vA`
a word of the wrong length — clause (b) of the claim holds — yet `consistent` does not
return `False`: it raises `IndexError` (modelled `none`) while indexing `"a"[1]` at
the shared cell of `vB` and `vA`. -/
theorem claim_C5_counterexample :
    ¬ (consistent exCw exBadA = some false ↔
        ((∃ e1 ∈ exBadA, ∃ e2 ∈ exBadA, e1.1 ≠ e2.1 ∧ e1.2 = e2.2) ∨
         (∃ e ∈ exBadA, e.2.length ≠ e.1.length) ∨
         (∃ e1 ∈ exBadA, ∃ e2 ∈ exBadA, ∃ i j, exCw.overlaps e1.1 e2.1 = some (i, j) ∧
           e1.2.get? i ≠ e2.2.get? j))) := by
  intro h
  have hv := h.mpr (Or.inr (Or.inl (by decide)))
  have hnone : consistent exCw exBadA = none := by decide
  rw [hnone] at hv
  cases hv

/-- Assignment used for the C5 witness: both slots carry the same word. -/
def exDupA : Assignment := [(vA, ['a', 'b']), (vB, ['a', 'b'])]

theorem claim_C5_witness :
    (WF exCw ∧ InBounds exCw exDupA) ∧ consistent exCw exDupA = some false :=
  ⟨⟨by decide, by decide⟩,
    (claim_C5_consistent exCw exDupA (by decide) (by decide) (by decide)
      (by decide)).mpr (Or.inl (by decide))⟩

/-- Arc consistency of the ordered pair `(p, q)` in domain store `d`: every remaining
word of `domain[p]` has a supporting word in `domain[q]` agreeing at the overlap. -/
def ArcOK (cw : Crossword) (d : Domains) (p q : Variable) : Prop :=
  ∀ i j, cw.overlaps p q = some (i, j) → ∀ wp ∈ d p, ∃ wq ∈ d q, wq.get? j = wp.get? i

lemma revise_snd_subset {cw : Crossword} {d : Domains} {x y : Variable} :
    ∀ v, ∀ w ∈ (revise cw d x y).2 v, w ∈ d v := by
  intro v w
  cases ho : cw.overlaps x y with
  | none => simp [revise, ho]
  | some p =>
    obtain ⟨i, j⟩ := p
    simp only [revise, ho]
    by_cases hv : v = x
    · subst hv
      rw [if_pos rfl]
      exact List.mem_of_mem_filter
    · rw [if_neg hv]
      exact id

lemma revise_snd_ne {cw : Crossword} {d : Domains} {x y v : Variable} (hv : v ≠ x) :
    (revise cw d x y).2 v = d v := by
  cases ho : cw.overlaps x y with
  | none => simp [revise, ho]
  | some p =>
    obtain ⟨i, j⟩ := p
    simp only [revise, ho]
    rw [if_neg hv]

lemma revise_false_eq {cw : Crossword} {d : Domains} {x y : Variable}
    (h : (revise cw d x y).1 = false) : ∀ v, (revise cw d x y).2 v = d v := by
  intro v
  cases ho : cw.overlaps x y with
  | none => simp [revise, ho]
  | some p =>
    obtain ⟨i, j⟩ := p
    simp only [revise, ho] at h ⊢
    by_cases hv : v = x
    · subst hv
      rw [if_pos rfl]
      apply List.filter_eq_self.mpr
      intro wx hwx
      have h2 := List.any_eq_false.mp h wx hwx
      cases hk : (d y).any fun wy => decide (wy.get? j = wx.get? i) with
      | false => exact absurd (by rw [hk]; rfl) h2
      | true => rfl
    · rw [if_neg hv]

lemma revise_true_overlap {cw : Crossword} {d : Domains} {x y : Variable}
    (h : (revise cw d x y).1 = true) : ∃ i j, cw.overlaps x y = some (i, j) := by
  cases ho : cw.overlaps x y with
  | none => simp [revise, ho] at h
  | some p =>
    obtain ⟨i, j⟩ := p
    exact ⟨i, j, rfl⟩

lemma revise_false_ArcOK {cw : Crossword} {d : Domains} {x y : Variable}
    (h : (revise cw d x y).1 = false) : ArcOK cw d x y := by
  intro i j ho wx hwx
  simp only [revise, ho] at h
  have h2 := List.any_eq_false.mp h wx hwx
  cases hk : (d y).any fun wy => decide (wy.get? j = wx.get? i) with
  | true =>
    obtain ⟨wy, hwy, hq⟩ := List.any_eq_true.mp hk
    exact ⟨wy, hwy, by simpa using hq⟩
  | false => exact absurd (by rw [hk]; rfl) h2

lemma mem_enqueueArcs {cw : Crossword} {x : Variable} {hx : x ∈ cw.vars} {y z : Variable}
    (hz : z ∈ neighbors cw x) (hzy : z ≠ y) :
    (z, x) ∈ (enqueueArcs cw x hx y).map Subtype.val := by
  unfold enqueueArcs
  rw [List.map_map]
  apply List.mem_map.mpr
  have hzf : z ∈ (neighbors cw x).filter (fun z => decide (z ≠ y)) :=
    List.mem_filter.mpr ⟨hz, by simpa using hzy⟩
  exact ⟨⟨z, hzf⟩, List.mem_attach _ _, rfl⟩

lemma mem_initialArcs {cw : Crossword} {x y : Variable} (hx : x ∈ cw.vars)
    (hy : y ∈ cw.vars) (hne : x ≠ y) (ho : (cw.overlaps x y).isSome = true) :
    (x, y) ∈ (initialArcs cw).map Subtype.val := by
  apply List.mem_map.mpr
  have hyf : y ∈ cw.vars.filter (fun y' => decide (x ≠ y') && (cw.overlaps x y').isSome) :=
    List.mem_filter.mpr ⟨hy, by simp [hne, ho]⟩
  refine ⟨⟨(x, y), hx, hy, hne⟩, ?_, rfl⟩
  unfold initialArcs
  apply List.mem_bind.mpr
  refine ⟨⟨x, hx⟩, List.mem_attach _ _, ?_⟩
  apply List.mem_map.mpr
  refine ⟨⟨y, hyf⟩, List.mem_attach _ _, ?_⟩
  rfl

lemma ArcOK_congr {cw : Crossword} {d1 d2 : Domains} (h : ∀ v, d1 v = d2 v)
    {p q : Variable} (hok : ArcOK cw d1 p q) : ArcOK cw d2 p q := by
  intro i j ho wp hwp
  rw [← h p] at hwp
  obtain ⟨wq, hwq, heq⟩ := hok i j ho wp hwp
  rw [h q] at hwq
  exact ⟨wq, hwq, heq⟩

lemma revise_preserves_reverse {cw : Crossword} {d : Domains} {x y : Variable}
    (hwf : WF cw) (hx : x ∈ cw.vars) (hy : y ∈ cw.vars) (hne : x ≠ y)
    (hok : ArcOK cw d y x) : ArcOK cw (revise cw d x y).2 y x := by
  intro j' i' ho' wy hwy
  have hyne : y ≠ x := fun hh => hne hh.symm
  rw [revise_snd_ne hyne] at hwy
  obtain ⟨wx, hwx, heq⟩ := hok j' i' ho' wy hwy
  have ho : cw.overlaps x y = some (i', j') := by
    have := (WF_spec hwf hy hx ho').2.1
    exact this
  refine ⟨wx, ?_, heq⟩
  simp only [revise, ho]
  rw [if_pos trivial]
  apply List.mem_filter.mpr
  refine ⟨hwx, ?_⟩
  apply List.any_eq_true.mpr
  exact ⟨wy, hwy, by simpa using heq.symm⟩

lemma revise_arcOK_self {cw : Crossword} {d : Domains} {x y : Variable} (hne : x ≠ y) :
    ArcOK cw (revise cw d x y).2 x y := by
  intro i j ho wx hwx
  have hyne : y ≠ x := fun hh => hne hh.symm
  rw [revise_snd_ne hyne]
  simp only [revise, ho] at hwx
  rw [if_pos trivial] at hwx
  have hk := (List.mem_filter.mp hwx).2
  obtain ⟨wy, hwy, hq⟩ := List.any_eq_true.mp hk
  exact ⟨wy, hwy, by simpa using hq⟩

lemma ac3Go_nil (cw : Crossword) (d : Domains) : ac3Go cw d [] = (true, d) := by
  rw [ac3Go]

lemma ac3Go_cons_empty (cw : Crossword) (d : Domains) (arc : Arc cw)
    (rest : List (Arc cw)) (hrev : (revise cw d arc.val.1 arc.val.2).1 = true)
    (hempty : ((revise cw d arc.val.1 arc.val.2).2 arc.val.1).isEmpty = true) :
    ac3Go cw d (arc :: rest) = (false, (revise cw d arc.val.1 arc.val.2).2) := by
  rw [ac3Go]
  rw [dif_pos hrev, if_pos hempty]

lemma ac3Go_cons_true (cw : Crossword) (d : Domains) (arc : Arc cw)
    (rest : List (Arc cw)) (hrev : (revise cw d arc.val.1 arc.val.2).1 = true)
    (hempty : ¬ ((revise cw d arc.val.1 arc.val.2).2 arc.val.1).isEmpty = true) :
    ac3Go cw d (arc :: rest) =
      ac3Go cw (revise cw d arc.val.1 arc.val.2).2
        (enqueueArcs cw arc.val.1 arc.property.1 arc.val.2 ++ rest) := by
  rw [ac3Go]
  rw [dif_pos hrev, if_neg hempty]

lemma ac3Go_cons_false (cw : Crossword) (d : Domains) (arc : Arc cw)
    (rest : List (Arc cw)) (hrev : ¬ (revise cw d arc.val.1 arc.val.2).1 = true) :
    ac3Go cw d (arc :: rest) = ac3Go cw (revise cw d arc.val.1 arc.val.2).2 rest := by
  rw [ac3Go]
  rw [dif_neg hrev]

lemma ac3Go_post {cw : Crossword} (hwf : WF cw) (d : Domains) (arcs : List (Arc cw)) :
    (∀ x ∈ cw.vars, ∀ y ∈ cw.vars, (cw.overlaps x y).isSome = true →
      ((x, y) ∈ arcs.map Subtype.val ∨ ArcOK cw d x y)) →
    (ac3Go cw d arcs).1 = true →
    (∀ x ∈ cw.vars, ∀ y ∈ cw.vars, ArcOK cw (ac3Go cw d arcs).2 x y) := by
  induction d, arcs using ac3Go.induct with
  | case1 d =>
    intro hinv _ x hx y hy
    intro i j ho wp hwp
    have hov : (cw.overlaps x y).isSome = true := by rw [ho]; rfl
    rcases hinv x hx y hy hov with hmem | hok
    · simp at hmem
    · have h2 : (ac3Go cw d []).2 = d := by rw [ac3Go_nil]
      rw [h2] at hwp ⊢
      exact hok i j ho wp hwp
  | case2 d arc rest r hrev hempty =>
    intro hinv htrue
    exfalso
    rw [ac3Go_cons_empty cw d arc rest hrev hempty] at htrue
    cases htrue
  | case3 d arc rest r hrev hempty ih =>
    intro hinv htrue
    have hstep := ac3Go_cons_true cw d arc rest hrev hempty
    rw [hstep] at htrue ⊢
    apply ih ?_ htrue
    intro p hp q hq hov
    rcases hinv p hp q hq hov with hmem | hok
    · rw [List.map_cons, List.mem_cons] at hmem
      rcases hmem with heq | hmem'
      · have hp1 : p = arc.val.1 := congrArg Prod.fst heq
        have hq1 : q = arc.val.2 := congrArg Prod.snd heq
        right
        rw [hp1, hq1]
        exact revise_arcOK_self arc.property.2.2
      · left
        rw [List.map_append]
        exact List.mem_append_right _ hmem'
    · by_cases hqx : q = arc.val.1
      · by_cases hpy : p = arc.val.2
        · right
          rw [hpy, hqx]
          rw [hpy, hqx] at hok
          exact revise_preserves_reverse hwf arc.property.1 arc.property.2.1
            arc.property.2.2 hok
        · left
          subst hqx
          obtain ⟨pr, hsome⟩ := Option.isSome_iff_exists.mp hov
          obtain ⟨i, j⟩ := pr
          have hspec := WF_spec hwf hp arc.property.1 hsome
          have hnbr : p ∈ neighbors cw arc.val.1 := by
            apply List.mem_filter.mpr
            refine ⟨hp, ?_⟩
            simp only [Bool.and_eq_true, decide_eq_true_eq]
            refine ⟨hspec.1, ?_⟩
            rw [hspec.2.1]
            rfl
          rw [List.map_append]
          exact List.mem_append_left _ (mem_enqueueArcs hnbr hpy)
      · right
        intro i j ho wp hwp
        have hwp' : wp ∈ d p := revise_snd_subset p wp hwp
        obtain ⟨wq, hwq, heq⟩ := hok i j ho wp hwp'
        rw [revise_snd_ne hqx]
        exact ⟨wq, hwq, heq⟩
  | case4 d arc rest r hrev ih =>
    intro hinv htrue
    have hrevf : (revise cw d arc.val.1 arc.val.2).1 = false := by
      cases hr : (revise cw d arc.val.1 arc.val.2).1
      · rfl
      · exact absurd hr hrev
    have hstep := ac3Go_cons_false cw d arc rest hrev
    rw [hstep] at htrue ⊢
    apply ih ?_ htrue
    intro p hp q hq hov
    rcases hinv p hp q hq hov with hmem | hok
    · rw [List.map_cons, List.mem_cons] at hmem
      rcases hmem with heq | hmem'
      · have hp1 : p = arc.val.1 := congrArg Prod.fst heq
        have hq1 : q = arc.val.2 := congrArg Prod.snd heq
        right
        have hok0 : ArcOK cw d p q := by
          rw [hp1, hq1]
          exact revise_false_ArcOK hrevf
        exact ArcOK_congr (fun v => (revise_false_eq hrevf v).symm) hok0
      · left
        exact hmem'
    · right
      exact ArcOK_congr (fun v => (revise_false_eq hrevf v).symm) hok

/-- C3.  AC-3 success postcondition: on a well-formed puzzle, if `ac3` with its
default (`None`) arc list returns `True`, then in the resulting domains every word
remaining in `domain[x]` of every ordered overlapping pair `(x, y)` has a word in
`domain[y]` agreeing at the overlap offsets. -/
theorem claim_C3_ac3_postcondition (cw : Crossword) (d : Domains) (hwf : WF cw)
    (htrue : (ac3 cw d).1 = true) :
    ∀ x ∈ cw.vars, ∀ y ∈ cw.vars, ∀ i j, cw.overlaps x y = some (i, j) →
      ∀ wx ∈ (ac3 cw d).2 x, ∃ wy ∈ (ac3 cw d).2 y, wy.get? j = wx.get? i := by
  intro x hx y hy i j ho
  unfold ac3 at htrue ⊢
  have hinv : ∀ p ∈ cw.vars, ∀ q ∈ cw.vars, (cw.overlaps p q).isSome = true →
      ((p, q) ∈ (initialArcs cw).map Subtype.val ∨ ArcOK cw d p q) := by
    intro p hp q hq hov
    left
    obtain ⟨pr, hsome⟩ := Option.isSome_iff_exists.mp hov
    obtain ⟨i', j'⟩ := pr
    exact mem_initialArcs hp hq (WF_spec hwf hp hq hsome).1 hov
  exact fun wx hwx =>
    ac3Go_post hwf d (initialArcs cw) hinv htrue x hx y hy i j ho wx hwx

lemma ac3_exCw_true : (ac3 exCw exD).1 = true := by
  unfold ac3
  have harcs : initialArcs exCw =
      [⟨(vA, vB), by decide⟩, ⟨(vB, vA), by decide⟩] := rfl
  rw [harcs]
  rw [ac3Go_cons_true exCw exD _ _ (by decide) (by decide)]
  have henq : ∀ h, enqueueArcs exCw vA h vB = [] := fun h => rfl
  rw [henq, List.nil_append]
  rw [ac3Go_cons_false exCw _ _ _ (by decide)]
  rw [ac3Go_nil]

theorem claim_C3_witness :
    (WF exCw ∧ (ac3 exCw exD).1 = true) ∧
    (∀ x ∈ exCw.vars, ∀ y ∈ exCw.vars, ∀ i j, exCw.overlaps x y = some (i, j) →
      ∀ wx ∈ (ac3 exCw exD).2 x, ∃ wy ∈ (ac3 exCw exD).2 y, wy.get? j = wx.get? i) :=
  ⟨⟨by decide, ac3_exCw_true⟩,
    claim_C3_ac3_postcondition exCw exD (by decide) ac3_exCw_true⟩

lemma foldl_min_dlen (cw : Crossword) (d : Domains) :
    ∀ (cs : List Variable) (c : Variable), ∀ v ∈ c :: cs,
      (d (cs.foldl (fun best u =>
        if keyLt (selKey cw d u) (selKey cw d best) then u else best) c)).length ≤
        (d v).length := by
  intro cs
  induction cs with
  | nil =>
    intro c v hv
    rcases List.mem_cons.mp hv with rfl | h
    · exact Nat.le_refl _
    · cases h
  | cons b t ih =>
    intro c v hv
    simp only [List.foldl_cons]
    by_cases hg : keyLt (selKey cw d b) (selKey cw d c)
    · rw [if_pos hg]
      have hbc : (d b).length ≤ (d c).length := by
        rcases hg with hlt | ⟨heq, _⟩
        · exact Nat.le_of_lt hlt
        · exact Nat.le_of_eq heq
      rcases List.mem_cons.mp hv with rfl | hv'
      · exact Nat.le_trans (ih b _ (List.mem_cons_self _ _)) hbc
      · exact ih b _ hv'
    · rw [if_neg hg]
      have hcb : (d c).length ≤ (d b).length := by
        have hnl : ¬ (selKey cw d b).1 < (selKey cw d c).1 := fun hh => hg (Or.inl hh)
        exact Nat.le_of_not_lt hnl
      rcases List.mem_cons.mp hv with rfl | hv'
      · exact ih _ _ (List.mem_cons_self _ _)
      · rcases List.mem_cons.mp hv' with rfl | hv''
        · exact Nat.le_trans (ih _ _ (List.mem_cons_self _ _)) hcb
        · exact ih _ _ (List.mem_cons_of_mem _ hv'')

lemma select_min_dlen {cw : Crossword} {d : Domains} {a : Assignment} {var : Variable}
    (h : select_unassigned_variable cw d a = some var) :
    ∀ v ∈ cw.vars, v ∉ keysA a → (d var).length ≤ (d v).length := by
  intro v hv hvk
  unfold select_unassigned_variable at h
  rcases hf : cw.vars.filter (fun u => decide (u ∉ keysA a)) with _ | ⟨c, cs⟩
  · rw [hf] at h; cases h
  · rw [hf] at h
    simp only [Option.some.injEq] at h
    have hvmem : v ∈ c :: cs := by
      rw [← hf]
      exact List.mem_filter.mpr ⟨hv, by simpa using hvk⟩
    rw [← h]
    exact foldl_min_dlen cw d cs c v hvmem

lemma ac3Go_false_empty {cw : Crossword} (d : Domains) (arcs : List (Arc cw)) :
    ∀ d', ac3Go cw d arcs = (false, d') → ∃ v ∈ cw.vars, d' v = [] := by
  induction d, arcs using ac3Go.induct with
  | case1 d =>
    intro d' h
    rw [ac3Go_nil] at h
    cases h
  | case2 d arc rest r hrev hempty =>
    intro d' h
    rw [ac3Go_cons_empty cw d arc rest hrev hempty] at h
    injection h with h1 h2
    refine ⟨arc.val.1, arc.property.1, ?_⟩
    rw [← h2]
    have := hempty
    cases hh : (revise cw d arc.val.1 arc.val.2).2 arc.val.1 with
    | nil => rfl
    | cons w ws =>
      rw [hh] at this
      cases this
  | case3 d arc rest r hrev hempty ih =>
    intro d' h
    rw [ac3Go_cons_true cw d arc rest hrev hempty] at h
    exact ih d' h
  | case4 d arc rest r hrev ih =>
    intro d' h
    rw [ac3Go_cons_false cw d arc rest hrev] at h
    exact ih d' h

lemma backtrackS_none_of_empty {cw : Crossword} {d : Domains} {a : Assignment}
    (hcomp : assignment_complete cw a = false)
    (hex : ∃ v ∈ cw.vars, v ∉ keysA a ∧ d v = []) :
    (backtrackS cw d a).val = some (none, a) := by
  obtain ⟨v, hv, hvk, hvd⟩ := hex
  obtain ⟨var, hsel⟩ := select_unassigned_variable_isSome (d := d) hcomp
  have hmin := select_min_dlen hsel v hv hvk
  rw [hvd] at hmin
  have hdvar : d var = [] := List.length_eq_zero.mp (Nat.le_zero.mp hmin)
  have horder : order_domain_values cw d var a = [] := by
    unfold order_domain_values
    rw [hdvar]
    rfl
  rw [backtrackS]
  rw [dif_neg (by simp [hcomp])]
  split
  · rename_i heq
    rw [hsel] at heq
    cases heq
  · rename_i var' heq
    rw [hsel] at heq
    injection heq with heq'
    subst heq'
    rw [horder]
    rw [tryValues]

/-- A variant of the example puzzle with a vocabulary admitting no arc-consistent
choice for `vA`: AC-3 empties `domain[vA]` and fails. -/
def exCwF : Crossword where
  vars := [vA, vB]
  words := [['a', 'b'], ['c', 'd']]
  overlaps := fun x y =>
    if x = vA ∧ y = vB then some (1, 0)
    else if x = vB ∧ y = vA then some (0, 1)
    else none

/-- The domain store of `exCwF` after initialization and node consistency. -/
def dF : Domains := enforce_node_consistency exCwF (initDomains exCwF)

/-- The worklist arc `(vA, vB)` of `exCwF`. -/
def arcF : Arc exCwF := ⟨(vA, vB), by decide⟩

/-- The worklist arc `(vB, vA)` of `exCwF`. -/
def arcF2 : Arc exCwF := ⟨(vB, vA), by decide⟩

/-- C4.  UnsatisfiableDomain handling.  First part: whenever a revision performed
inside the AC-3 worklist loop leaves the revised variable's domain empty, the loop
returns `False` at once, with the post-revision domains and the remaining arcs
unprocessed.  Second part: on a well-formed puzzle, whenever the `ac3()` call inside
`solve()` reports failure (which happens exactly when it emptied some domain), `solve`
returns the no-solution sentinel `None` — in the code this happens not by `solve`
consulting `ac3`'s ignored return value but because backtracking immediately selects
the emptied (minimum-remaining-values) variable and runs out of candidates. -/
theorem claim_C4_unsat_domain :
    (∀ (cw : Crossword) (d : Domains) (arc : Arc cw) (rest : List (Arc cw)),
      (revise cw d arc.val.1 arc.val.2).1 = true →
      (revise cw d arc.val.1 arc.val.2).2 arc.val.1 = [] →
      ac3Go cw d (arc :: rest) = (false, (revise cw d arc.val.1 arc.val.2).2)) ∧
    (∀ cw : Crossword, WF cw → ∀ d2 : Domains,
      ac3 cw (enforce_node_consistency cw (initDomains cw)) = (false, d2) →
      solve cw = some none) := by
  constructor
  · intro cw d arc rest hrev hemp
    exact ac3Go_cons_empty cw d arc rest hrev (by rw [hemp]; rfl)
  · intro cw _hwf d2 hac3
    have hfalse : ac3Go cw (enforce_node_consistency cw (initDomains cw))
        (initialArcs cw) = (false, d2) := hac3
    obtain ⟨v, hv, hvd⟩ := ac3Go_false_empty _ (initialArcs cw) d2 hfalse
    unfold solve
    have hdom : solveDomains cw = d2 := by
      unfold solveDomains
      rw [hac3]
    rw [hdom]
    have hcomp : assignment_complete cw [] = false := by
      unfold assignment_complete
      exact all_eq_false_of_mem hv (by simp [keysA])
    rw [backtrackS_none_of_empty hcomp ⟨v, hv, by simp [keysA], hvd⟩]
    rfl

lemma ac3_exCwF_eval :
    ac3 exCwF (enforce_node_consistency exCwF (initDomains exCwF)) =
      (false, (revise exCwF (enforce_node_consistency exCwF (initDomains exCwF)) vA vB).2) := by
  unfold ac3
  have harcs : initialArcs exCwF = [⟨(vA, vB), by decide⟩, ⟨(vB, vA), by decide⟩] := rfl
  rw [harcs]
  exact ac3Go_cons_empty exCwF _ _ _ (by decide) (by decide)

theorem claim_C4_witness :
    ((revise exCwF dF vA vB).1 = true ∧ (revise exCwF dF vA vB).2 vA = [] ∧
      WF exCwF ∧ ac3 exCwF (enforce_node_consistency exCwF (initDomains exCwF)) =
        (false, (revise exCwF dF vA vB).2)) ∧
    (ac3Go exCwF dF (arcF :: [arcF2]) = (false, (revise exCwF dF vA vB).2) ∧
      solve exCwF = some none) := by
  refine ⟨⟨by decide, by decide, by decide, ac3_exCwF_eval⟩, ?_, ?_⟩
  · exact claim_C4_unsat_domain.1 exCwF dF arcF [arcF2] (by decide) (by decide)
  · exact claim_C4_unsat_domain.2 exCwF (by decide) _ ac3_exCwF_eval

/-- An isolated slot of length four. -/
def vI : Variable := ⟨0, 0, Direction.across, 4⟩

/-- A puzzle with a single isolated variable whose vocabulary has no word of the
right length: node consistency empties the domain, yet there are no arcs at all. -/
def exCwI : Crossword where
  vars := [vI]
  words := [['a', 'b']]
  overlaps := fun _ _ => none

lemma ac3_exCwI_eval :
    ac3 exCwI (enforce_node_consistency exCwI (initDomains exCwI)) =
      (true, enforce_node_consistency exCwI (initDomains exCwI)) := by
  unfold ac3
  rw [show initialArcs exCwI = [] from rfl, ac3Go_nil]

lemma solveDomains_exCwI :
    solveDomains exCwI = enforce_node_consistency exCwI (initDomains exCwI) := by
  unfold solveDomains
  rw [ac3_exCwI_eval]

lemma backtrack_exCwI_eval :
    (backtrackS exCwI (solveDomains exCwI) []).val = some (none, []) := by
  have hcomp : assignment_complete exCwI [] = false := by decide
  apply backtrackS_none_of_empty hcomp
  refine ⟨vI, by decide, by simp [keysA], ?_⟩
  rw [solveDomains_exCwI]
  decide

/-- C10.  `ac3`'s success does not guarantee non-empty domains: on the puzzle
`exCwI` (one isolated length-4 variable, vocabulary without a length-4 word), node
consistency empties the variable's domain, the default arc list is empty, and `ac3`
returns `True` with the domain still empty; the overall no-solution result is
produced only later, by the backtracking search inside `solve`. -/
theorem claim_C10_ac3_true_empty_domain :
    (ac3 exCwI (enforce_node_consistency exCwI (initDomains exCwI))).1 = true ∧
    (ac3 exCwI (enforce_node_consistency exCwI (initDomains exCwI))).2 vI = [] ∧
    vI ∈ exCwI.vars ∧
    solve exCwI = some none := by
  refine ⟨by rw [ac3_exCwI_eval], by rw [ac3_exCwI_eval]; decide, by decide, ?_⟩
  unfold solve
  rw [backtrack_exCwI_eval]
  rfl

/-- C9.  Undo exactness and domain framing: a `backtrack` call that fails leaves the
assignment dict exactly as it found it (and a successful call's final dict state is
the returned assignment itself, Python returning the mutated dict object); and
`backtrack` never mutates the domain store, so the domains after `solve` are exactly
those produced by the AC-3 run inside it. -/
theorem claim_C9_undo_exactness :
    (∀ (cw : Crossword) (d : Domains) (a : Assignment) (res : Option Assignment)
        (a2 : Assignment), (backtrackS cw d a).val = some (res, a2) →
        (res = none → a2 = a) ∧ (∀ r, res = some r → a2 = r)) ∧
    (∀ cw : Crossword, solveDomains cw =
      (ac3 cw (enforce_node_consistency cw (initDomains cw))).2) := by
  constructor
  · intro cw d a res a2 heq
    have hp := (backtrackS cw d a).property res a2 heq
    exact ⟨hp.1, fun r hr => (hp.2 r hr).1⟩
  · intro cw
    rfl

theorem claim_C9_witness :
    (backtrackS exCwI (solveDomains exCwI) []).val = some (none, []) ∧
    ((none = (none : Option Assignment) → ([] : Assignment) = []) ∧
      (∀ r, (none : Option Assignment) = some r → ([] : Assignment) = r)) :=
  ⟨backtrack_exCwI_eval,
    claim_C9_undo_exactness.1 exCwI (solveDomains exCwI) [] none [] backtrack_exCwI_eval⟩

/-- Assignment well-formedness maintained by the search: keys are puzzle variables
and every assigned word has its variable's length. -/
def AOK (cw : Crossword) (a : Assignment) : Prop :=
  ∀ e ∈ a, e.1 ∈ cw.vars ∧ e.2.length = e.1.length

lemma InBounds_of_AOK {cw : Crossword} {a : Assignment} (hwf : WF cw)
    (haok : AOK cw a) : InBounds cw a := by
  intro e1 h1 e2 h2
  unfold pairInBounds
  cases ho : cw.overlaps e1.1 e2.1 with
  | none => trivial
  | some p =>
    obtain ⟨i, j⟩ := p
    have hspec := WF_spec hwf (haok e1 h1).1 (haok e2 h2).1 ho
    exact ⟨by rw [(haok e1 h1).2]; exact hspec.2.2.1,
      by rw [(haok e2 h2).2]; exact hspec.2.2.2⟩

lemma consistent_isSome_of_AOK {cw : Crossword} {a : Assignment} (hwf : WF cw)
    (haok : AOK cw a) : ∃ b, consistent cw a = some b := by
  have := consistent_value_of_InBounds (InBounds_of_AOK hwf haok)
  exact ⟨_, this⟩

lemma AOK_append {cw : Crossword} {a0 : Assignment} {var : Variable} {w : Word}
    (haok : AOK cw a0) (hvv : var ∈ cw.vars) (hlw : w.length = var.length) :
    AOK cw (a0 ++ [(var, w)]) := by
  intro e he
  rcases List.mem_append.mp he with h | h
  · exact haok e h
  · rcases List.mem_singleton.mp h with rfl
    exact ⟨hvv, hlw⟩

lemma nodup_keys_append {a0 : Assignment} {var : Variable} {w : Word}
    (hnd : (keysA a0).Nodup) (hk : var ∉ keysA a0) :
    (keysA (a0 ++ [(var, w)])).Nodup := by
  rw [keysA_append]
  apply List.Nodup.append hnd (List.nodup_singleton _)
  intro x hx hx'
  rcases List.mem_singleton.mp hx' with rfl
  exact hk hx

lemma AOK_nil (cw : Crossword) : AOK cw [] := fun e he => absurd he (List.not_mem_nil e)

lemma ConsProp_nil (cw : Crossword) : ConsProp cw [] :=
  ⟨fun e he => absurd he (List.not_mem_nil e),
   fun e he => absurd he (List.not_mem_nil e),
   fun e he => absurd he (List.not_mem_nil e)⟩

lemma lengthOk_enforce (cw : Crossword) (d : Domains) :
    lengthOk cw (enforce_node_consistency cw d) := by
  intro v _ w hw
  have := (List.mem_filter.mp hw).2
  simpa using this

lemma ac3Go_subset {cw : Crossword} (d : Domains) (arcs : List (Arc cw)) :
    ∀ v, ∀ w ∈ (ac3Go cw d arcs).2 v, w ∈ d v := by
  induction d, arcs using ac3Go.induct with
  | case1 d =>
    intro v w hw
    rw [ac3Go_nil] at hw
    exact hw
  | case2 d arc rest r hrev hempty =>
    intro v w hw
    rw [ac3Go_cons_empty cw d arc rest hrev hempty] at hw
    exact revise_snd_subset v w hw
  | case3 d arc rest r hrev hempty ih =>
    intro v w hw
    rw [ac3Go_cons_true cw d arc rest hrev hempty] at hw
    exact revise_snd_subset v w (ih v w hw)
  | case4 d arc rest r hrev ih =>
    intro v w hw
    rw [ac3Go_cons_false cw d arc rest hrev] at hw
    exact revise_snd_subset v w (ih v w hw)

lemma lengthOk_solveDomains (cw : Crossword) : lengthOk cw (solveDomains cw) := by
  intro v hv w hw
  unfold solveDomains ac3 at hw
  exact lengthOk_enforce cw (initDomains cw) v hv w (ac3Go_subset _ _ v w hw)

lemma mem_order_domain_values {cw : Crossword} {d : Domains} {var : Variable}
    {a : Assignment} {w : Word} :
    w ∈ order_domain_values cw d var a ↔ w ∈ d var := by
  unfold order_domain_values
  exact List.mem_insertionSort _

lemma tryValues_sound {cw : Crossword} {d : Domains} (hwf : WF cw)
    (hlen : lengthOk cw d) {var : Variable} {a0 : Assignment}
    (hv : var ∈ cw.vars) (hk : var ∉ keysA a0)
    (recur : (a1 : Assignment) → unassigned cw a1 < unassigned cw a0 →
      {r : Option (Option Assignment × Assignment) // Restores cw a1 r})
    (hrec : ∀ a1 hlt, AOK cw a1 → (keysA a1).Nodup → ConsProp cw a1 →
      ∃ p, (recur a1 hlt).val = some p ∧
        ∀ r, p.1 = some r → assignment_complete cw r = true ∧ ConsProp cw r)
    (haok : AOK cw a0) (hnd : (keysA a0).Nodup) (hcons : ConsProp cw a0) :
    ∀ ws, (∀ w ∈ ws, w ∈ d var) → ∀ (acur : Assignment) (h : acur = a0),
      ∃ p, (tryValues cw d var a0 hv hk recur ws acur h).val = some p ∧
        ∀ r, p.1 = some r → assignment_complete cw r = true ∧ ConsProp cw r := by
  intro ws
  induction ws with
  | nil =>
    intro _ acur h
    refine ⟨(none, acur), by rw [tryValues], ?_⟩
    intro r hr
    cases hr
  | cons w ws ihw =>
    intro hws acur h
    have hws' : ∀ w' ∈ ws, w' ∈ d var := fun w' hw' => hws w' (List.mem_cons_of_mem _ hw')
    have hw : w ∈ d var := hws w (List.mem_cons_self _ _)
    have haok1 : AOK cw (acur ++ [(var, w)]) := by
      rw [h]
      exact AOK_append haok hv (hlen var hv w hw)
    have hnd1 : (keysA (acur ++ [(var, w)])).Nodup := by
      rw [h]
      exact nodup_keys_append hnd hk
    obtain ⟨b, hb⟩ := consistent_isSome_of_AOK hwf haok1
    rw [tryValues]
    cases b with
    | false =>
      simp only [hb]
      exact ihw hws' _ _
    | true =>
      simp only [hb]
      have hcons1 : ConsProp cw (acur ++ [(var, w)]) :=
        consistent_true_ConsProp hwf (fun e he => (haok1 e he).1) hnd1 hb
      have hlt0 : unassigned cw (acur ++ [(var, w)]) < unassigned cw a0 := by
        rw [h]
        exact unassigned_append_lt hv hk w
      obtain ⟨p, hpv, hpprop⟩ := hrec _ hlt0 haok1 hnd1 hcons1
      split
      · rename_i hb2
        exact absurd (hpv.symm.trans hb2) (by simp)
      · rename_i res a2 hb2
        have hpeq : p = (res, a2) := by
          have := hpv.symm.trans hb2
          injection this
        subst hpeq
        cases res with
        | none =>
          have hrest : a2 = acur ++ [(var, w)] :=
            ((recur _ hlt0).property none a2 hpv).1 rfl
          have hdel : var ∈ keysA a2 := by
            rw [hrest, keysA_append]
            exact List.mem_append_right _ (List.mem_singleton_self _)
          split
          · rw [dif_pos hdel]
            exact ihw hws' _ _
          · rename_i heq1 heq2
            cases heq1
        | some r =>
          have hprops := hpprop r rfl
          split
          · rename_i heq1 heq2
            cases heq1
          · rename_i res1 hb1 r1 hb2' heq1 heq2
            obtain rfl : r = r1 := by injection heq1
            have hrne : r ≠ [] := by
              intro hre
              have hcomp := hprops.1
              unfold assignment_complete at hcomp
              have := List.all_eq_true.mp hcomp var hv
              rw [hre] at this
              simp [keysA] at this
            have hremp : ¬ r.isEmpty = true := by
              cases r
              · exact absurd rfl hrne
              · simp
            rw [dif_neg hremp]
            refine ⟨(some r, a2), rfl, ?_⟩
            intro r' hr'
            injection hr' with hr''
            rw [← hr'']
            exact hprops

lemma backtrackS_step {cw : Crossword} {d : Domains} (hwf : WF cw)
    (hlen : lengthOk cw d) (a : Assignment)
    (hrec : ∀ a1, unassigned cw a1 < unassigned cw a → AOK cw a1 → (keysA a1).Nodup →
      ConsProp cw a1 → ∃ p, (backtrackS cw d a1).val = some p ∧
        ∀ r, p.1 = some r → assignment_complete cw r = true ∧ ConsProp cw r)
    (haok : AOK cw a) (hnd : (keysA a).Nodup) (hcons : ConsProp cw a) :
    ∃ p, (backtrackS cw d a).val = some p ∧
      ∀ r, p.1 = some r → assignment_complete cw r = true ∧ ConsProp cw r := by
  rw [backtrackS]
  by_cases hc : assignment_complete cw a = true
  · rw [dif_pos hc]
    refine ⟨(some a, a), rfl, ?_⟩
    intro r hr
    injection hr with hr'
    rw [← hr']
    exact ⟨hc, hcons⟩
  · rw [dif_neg hc]
    have hcf : assignment_complete cw a = false := by
      cases hx : assignment_complete cw a
      · rfl
      · exact absurd hx hc
    obtain ⟨var, hsel⟩ := select_unassigned_variable_isSome (d := d) hcf
    split
    · rename_i heq
      rw [hsel] at heq
      cases heq
    · rename_i var1 heq
      exact tryValues_sound hwf hlen (select_unassigned_variable_mem heq).1
        (select_unassigned_variable_mem heq).2 _ hrec haok hnd hcons
        _ (fun w hw => mem_order_domain_values.mp hw) a rfl

lemma backtrack_sound {cw : Crossword} {d : Domains} (hwf : WF cw)
    (hlen : lengthOk cw d) :
    ∀ n a, unassigned cw a ≤ n → AOK cw a → (keysA a).Nodup → ConsProp cw a →
      ∃ p, (backtrackS cw d a).val = some p ∧
        ∀ r, p.1 = some r → assignment_complete cw r = true ∧ ConsProp cw r := by
  intro n
  induction n with
  | zero =>
    intro a hn haok hnd hcons
    refine backtrackS_step hwf hlen a ?_ haok hnd hcons
    intro a1 hlt
    exact absurd (Nat.lt_of_lt_of_le hlt hn) (Nat.not_lt_zero _)
  | succ n ih =>
    intro a hn haok hnd hcons
    refine backtrackS_step hwf hlen a ?_ haok hnd hcons
    intro a1 hlt haok1 hnd1 hcons1
    exact ih a1 (Nat.le_of_lt_succ (Nat.lt_of_lt_of_le hlt hn)) haok1 hnd1 hcons1

/-- C1.  Soundness of `solve`: on a well-formed puzzle the solver returns without an
exception, and its return value is either the no-solution sentinel `None` or a
complete assignment — one whose keys cover every puzzle variable — in which every
assigned word's length equals its variable's length, distinct variables carry
distinct words, and every overlapping assigned pair agrees at the shared character;
never a partial or inconsistent assignment. -/
theorem claim_C1_solve_sound {cw : Crossword} (hwf : WF cw) :
    ∃ res, solve cw = some res ∧
      (res = none ∨
        ∃ r, res = some r ∧ assignment_complete cw r = true ∧ ConsProp cw r) := by
  obtain ⟨p, hp, hprop⟩ := backtrack_sound hwf (lengthOk_solveDomains cw)
    (unassigned cw []) [] le_rfl (AOK_nil cw) List.nodup_nil (ConsProp_nil cw)
  refine ⟨p.1, ?_, ?_⟩
  · unfold solve
    rw [hp]
    rfl
  · cases hres : p.1 with
    | none => exact Or.inl rfl
    | some r => exact Or.inr ⟨r, rfl, hprop r hres⟩

theorem claim_C1_witness :
    WF exCw ∧ ∃ res, solve exCw = some res ∧
      (res = none ∨
        ∃ r, res = some r ∧ assignment_complete exCw r = true ∧ ConsProp exCw r) :=
  ⟨by decide, claim_C1_solve_sound (by decide)⟩

/-- One pair's worth of the overlap-agreement constraint for a candidate total
solution `s`: if the two variables overlap, `s` agrees at the shared character. -/
def solAgree (cw : Crossword) (s : Variable → Word) (u v : Variable) : Prop :=
  match cw.overlaps u v with
  | none => True
  | some (i, j) => (s u).get? i = (s v).get? j

instance (cw : Crossword) (s : Variable → Word) (u v : Variable) :
    Decidable (solAgree cw s u v) :=
  match h : cw.overlaps u v with
  | none => isTrue (by unfold solAgree; rw [h]; trivial)
  | some (i, j) =>
    decidable_of_iff ((s u).get? i = (s v).get? j)
      (by unfold solAgree; rw [h])

lemma solAgree_spec {cw : Crossword} {s : Variable → Word} {u v : Variable}
    (h : solAgree cw s u v) {i j : Nat} (ho : cw.overlaps u v = some (i, j)) :
    (s u).get? i = (s v).get? j := by
  unfold solAgree at h
  rw [ho] at h
  exact h

/-- A satisfying complete assignment over the original (post-initialization, pre-AC-3)
domains, as a choice of one word per variable: every puzzle variable gets a vocabulary
word of its own length, distinct variables get distinct words, and overlapping
variables agree at the shared character. -/
def SolFun (cw : Crossword) (s : Variable → Word) : Prop :=
  (∀ v ∈ cw.vars, s v ∈ cw.words ∧ (s v).length = v.length) ∧
  (∀ u ∈ cw.vars, ∀ v ∈ cw.vars, u ≠ v → s u ≠ s v) ∧
  (∀ u ∈ cw.vars, ∀ v ∈ cw.vars, solAgree cw s u v)

instance (cw : Crossword) (s : Variable → Word) : Decidable (SolFun cw s) := by
  unfold SolFun
  infer_instance

lemma revise_preserves_sol {cw : Crossword} {s : Variable → Word}
    (hs : SolFun cw s) {d : Domains} (hd : ∀ v ∈ cw.vars, s v ∈ d v)
    {x y : Variable} (hx : x ∈ cw.vars) (hy : y ∈ cw.vars) :
    ∀ v ∈ cw.vars, s v ∈ (revise cw d x y).2 v := by
  intro v hv
  cases ho : cw.overlaps x y with
  | none => simp only [revise, ho]; exact hd v hv
  | some p =>
    obtain ⟨i, j⟩ := p
    simp only [revise, ho]
    by_cases hvx : v = x
    · subst hvx
      rw [if_pos rfl]
      apply List.mem_filter.mpr
      refine ⟨hd v hv, ?_⟩
      apply List.any_eq_true.mpr
      refine ⟨s y, hd y hy, ?_⟩
      simp only [decide_eq_true_eq]
      exact (solAgree_spec (hs.2.2 v hv y hy) ho).symm
    · rw [if_neg hvx]
      exact hd v hv

lemma ac3Go_preserves_sol {cw : Crossword} {s : Variable → Word}
    (hs : SolFun cw s) (d : Domains) (arcs : List (Arc cw)) :
    (∀ v ∈ cw.vars, s v ∈ d v) → ∀ v ∈ cw.vars, s v ∈ (ac3Go cw d arcs).2 v := by
  induction d, arcs using ac3Go.induct with
  | case1 d =>
    intro hd v hv
    rw [ac3Go_nil]
    exact hd v hv
  | case2 d arc rest r hrev hempty =>
    intro hd v hv
    rw [ac3Go_cons_empty cw d arc rest hrev hempty]
    exact revise_preserves_sol hs hd arc.property.1 arc.property.2.1 v hv
  | case3 d arc rest r hrev hempty ih =>
    intro hd v hv
    rw [ac3Go_cons_true cw d arc rest hrev hempty]
    exact ih (revise_preserves_sol hs hd arc.property.1 arc.property.2.1) v hv
  | case4 d arc rest r hrev ih =>
    intro hd v hv
    rw [ac3Go_cons_false cw d arc rest hrev]
    exact ih (revise_preserves_sol hs hd arc.property.1 arc.property.2.1) v hv

lemma solveDomains_preserves_sol {cw : Crossword} {s : Variable → Word}
    (hs : SolFun cw s) : ∀ v ∈ cw.vars, s v ∈ solveDomains cw v := by
  unfold solveDomains ac3
  apply ac3Go_preserves_sol hs
  intro v hv
  unfold enforce_node_consistency initDomains
  apply List.mem_filter.mpr
  exact ⟨(hs.1 v hv).1, by simp [(hs.1 v hv).2]⟩

lemma ConsProp_of_sol {cw : Crossword} {s : Variable → Word}
    (hs : SolFun cw s) {a : Assignment}
    (hmem : ∀ e ∈ a, e.1 ∈ cw.vars) (hag : ∀ e ∈ a, e.2 = s e.1) :
    ConsProp cw a := by
  refine ⟨?_, ?_, ?_⟩
  · intro e1 h1 e2 h2 hne
    rw [hag e1 h1, hag e2 h2]
    exact hs.2.1 e1.1 (hmem e1 h1) e2.1 (hmem e2 h2) hne
  · intro e he
    rw [hag e he]
    exact (hs.1 e.1 (hmem e he)).2
  · intro e1 h1 e2 h2 i j ho
    rw [hag e1 h1, hag e2 h2]
    exact solAgree_spec (hs.2.2 e1.1 (hmem e1 h1) e2.1 (hmem e2 h2)) ho

lemma tryValues_complete {cw : Crossword} {d : Domains} (hwf : WF cw)
    (hlen : lengthOk cw d) {s : Variable → Word} (hs : SolFun cw s)
    {var : Variable} {a0 : Assignment}
    (hv : var ∈ cw.vars) (hk : var ∉ keysA a0)
    (recur : (a1 : Assignment) → unassigned cw a1 < unassigned cw a0 →
      {r : Option (Option Assignment × Assignment) // Restores cw a1 r})
    (hrec : ∀ a1 hlt, AOK cw a1 → (keysA a1).Nodup → ConsProp cw a1 →
      ∃ p, (recur a1 hlt).val = some p ∧
        ∀ r, p.1 = some r → assignment_complete cw r = true ∧ ConsProp cw r)
    (hrecC : ∀ a1 hlt, AOK cw a1 → (keysA a1).Nodup → (∀ e ∈ a1, e.2 = s e.1) →
      ∃ p, (recur a1 hlt).val = some p ∧ ∃ r, p.1 = some r)
    (haok : AOK cw a0) (hnd : (keysA a0).Nodup) (hag : ∀ e ∈ a0, e.2 = s e.1) :
    ∀ ws, (∀ w ∈ ws, w ∈ d var) → s var ∈ ws →
      ∀ (acur : Assignment) (h : acur = a0),
      ∃ p, (tryValues cw d var a0 hv hk recur ws acur h).val = some p ∧
        ∃ r, p.1 = some r := by
  intro ws
  induction ws with
  | nil =>
    intro _ hsv
    exact absurd hsv (List.not_mem_nil _)
  | cons w ws ihw =>
    intro hws hsv acur h
    have hws' : ∀ w' ∈ ws, w' ∈ d var := fun w' hw' => hws w' (List.mem_cons_of_mem _ hw')
    have hw : w ∈ d var := hws w (List.mem_cons_self _ _)
    have haok1 : AOK cw (acur ++ [(var, w)]) := by
      rw [h]
      exact AOK_append haok hv (hlen var hv w hw)
    have hnd1 : (keysA (acur ++ [(var, w)])).Nodup := by
      rw [h]
      exact nodup_keys_append hnd hk
    have hag1 : w = s var → ∀ e ∈ acur ++ [(var, w)], e.2 = s e.1 := by
      intro hwe e he
      rcases List.mem_append.mp he with h1 | h1
      · exact hag e (h ▸ h1)
      · rcases List.mem_singleton.mp h1 with rfl
        exact hwe
    obtain ⟨b, hb⟩ := consistent_isSome_of_AOK hwf haok1
    rw [tryValues]
    cases b with
    | false =>
      simp only [hb]
      have hwsv : w ≠ s var := by
        intro hwe
        have hcons1 : ConsProp cw (acur ++ [(var, w)]) :=
          ConsProp_of_sol hs (fun e he => (haok1 e he).1) (hag1 hwe)
        have htrue := ConsProp_consistent_true hwf (fun e he => (haok1 e he).1) hnd1 hcons1
        exact absurd (hb.symm.trans htrue) (by simp)
      have hsv' : s var ∈ ws := by
        rcases List.mem_cons.mp hsv with h1 | h1
        · exact absurd h1.symm hwsv
        · exact h1
      exact ihw hws' hsv' _ _
    | true =>
      simp only [hb]
      have hcons1 : ConsProp cw (acur ++ [(var, w)]) :=
        consistent_true_ConsProp hwf (fun e he => (haok1 e he).1) hnd1 hb
      have hlt0 : unassigned cw (acur ++ [(var, w)]) < unassigned cw a0 := by
        rw [h]
        exact unassigned_append_lt hv hk w
      obtain ⟨p, hpv, hpprop⟩ := hrec _ hlt0 haok1 hnd1 hcons1
      by_cases hwsv : w = s var
      · obtain ⟨pc, hpcv, r0, hpc1⟩ := hrecC _ hlt0 haok1 hnd1 (hag1 hwsv)
        have hpp : pc = p := by
          have := hpcv.symm.trans hpv
          injection this
        subst hpp
        split
        · rename_i hb2
          exact absurd (hpv.symm.trans hb2) (by simp)
        · rename_i res a2 hb2
          have hpeq : pc = (res, a2) := by
            have := hpv.symm.trans hb2
            injection this
          subst hpeq
          cases res with
          | none => exact absurd hpc1 (by simp)
          | some r =>
            have hprops := hpprop r rfl
            split
            · rename_i heq1 heq2
              cases heq1
            · rename_i res1 hb1 r1 hb2' heq1 heq2
              obtain rfl : r = r1 := by injection heq1
              have hrne : r ≠ [] := by
                intro hre
                have hcomp := hprops.1
                unfold assignment_complete at hcomp
                have := List.all_eq_true.mp hcomp var hv
                rw [hre] at this
                simp [keysA] at this
              have hremp : ¬ r.isEmpty = true := by
                cases r
                · exact absurd rfl hrne
                · simp
              rw [dif_neg hremp]
              exact ⟨(some r, a2), rfl, r, rfl⟩
      · have hsv' : s var ∈ ws := by
          rcases List.mem_cons.mp hsv with h1 | h1
          · exact absurd h1.symm hwsv
          · exact h1
        split
        · rename_i hb2
          exact absurd (hpv.symm.trans hb2) (by simp)
        · rename_i res a2 hb2
          have hpeq : p = (res, a2) := by
            have := hpv.symm.trans hb2
            injection this
          subst hpeq
          cases res with
          | none =>
            have hrest : a2 = acur ++ [(var, w)] :=
              ((recur _ hlt0).property none a2 hpv).1 rfl
            have hdel : var ∈ keysA a2 := by
              rw [hrest, keysA_append]
              exact List.mem_append_right _ (List.mem_singleton_self _)
            split
            · rw [dif_pos hdel]
              exact ihw hws' hsv' _ _
            · rename_i heq1 heq2
              cases heq1
          | some r =>
            have hprops := hpprop r rfl
            split
            · rename_i heq1 heq2
              cases heq1
            · rename_i res1 hb1 r1 hb2' heq1 heq2
              obtain rfl : r = r1 := by injection heq1
              have hrne : r ≠ [] := by
                intro hre
                have hcomp := hprops.1
                unfold assignment_complete at hcomp
                have := List.all_eq_true.mp hcomp var hv
                rw [hre] at this
                simp [keysA] at this
              have hremp : ¬ r.isEmpty = true := by
                cases r
                · exact absurd rfl hrne
                · simp
              rw [dif_neg hremp]
              exact ⟨(some r, a2), rfl, r, rfl⟩

lemma backtrackS_stepC {cw : Crossword} {d : Domains} (hwf : WF cw)
    (hlen : lengthOk cw d) {s : Variable → Word} (hs : SolFun cw s)
    (hd : ∀ v ∈ cw.vars, s v ∈ d v) (a : Assignment)
    (hrecC : ∀ a1, unassigned cw a1 < unassigned cw a → AOK cw a1 →
      (keysA a1).Nodup → (∀ e ∈ a1, e.2 = s e.1) →
      ∃ p, (backtrackS cw d a1).val = some p ∧ ∃ r, p.1 = some r)
    (haok : AOK cw a) (hnd : (keysA a).Nodup) (hag : ∀ e ∈ a, e.2 = s e.1) :
    ∃ p, (backtrackS cw d a).val = some p ∧ ∃ r, p.1 = some r := by
  rw [backtrackS]
  by_cases hc : assignment_complete cw a = true
  · rw [dif_pos hc]
    exact ⟨(some a, a), rfl, a, rfl⟩
  · rw [dif_neg hc]
    have hcf : assignment_complete cw a = false := by
      cases hx : assignment_complete cw a
      · rfl
      · exact absurd hx hc
    obtain ⟨var, hsel⟩ := select_unassigned_variable_isSome (d := d) hcf
    split
    · rename_i heq
      rw [hsel] at heq
      cases heq
    · rename_i var1 heq
      exact tryValues_complete hwf hlen hs (select_unassigned_variable_mem heq).1
        (select_unassigned_variable_mem heq).2 _
        (fun a1 hlt haok1 hnd1 hcons1 =>
          backtrack_sound hwf hlen (unassigned cw a1) a1 le_rfl haok1 hnd1 hcons1)
        hrecC haok hnd hag
        _ (fun w hw => mem_order_domain_values.mp hw)
        (mem_order_domain_values.mpr (hd var1 (select_unassigned_variable_mem heq).1))
        a rfl

lemma backtrack_complete {cw : Crossword} {d : Domains} (hwf : WF cw)
    (hlen : lengthOk cw d) {s : Variable → Word} (hs : SolFun cw s)
    (hd : ∀ v ∈ cw.vars, s v ∈ d v) :
    ∀ n a, unassigned cw a ≤ n → AOK cw a → (keysA a).Nodup →
      (∀ e ∈ a, e.2 = s e.1) →
      ∃ p, (backtrackS cw d a).val = some p ∧ ∃ r, p.1 = some r := by
  intro n
  induction n with
  | zero =>
    intro a hn haok hnd hag
    refine backtrackS_stepC hwf hlen hs hd a ?_ haok hnd hag
    intro a1 hlt
    exact absurd (Nat.lt_of_lt_of_le hlt hn) (Nat.not_lt_zero _)
  | succ n ih =>
    intro a hn haok hnd hag
    refine backtrackS_stepC hwf hlen hs hd a ?_ haok hnd hag
    intro a1 hlt haok1 hnd1 hag1
    exact ih a1 (Nat.le_of_lt_succ (Nat.lt_of_lt_of_le hlt hn)) haok1 hnd1 hag1

/-- C2.  Completeness of the search: on a well-formed puzzle, if some total choice of
vocabulary words for the variables satisfies the length, distinctness and overlap
constraints over the original (post-initialization, pre-AC-3) domains, then `solve`
returns a satisfying complete assignment rather than the failure signal: node
consistency and AC-3 never remove a word that participates in the given solution, and
the backtracking search is exhaustive over the remaining candidates. -/
theorem claim_C2_solve_complete {cw : Crossword} (hwf : WF cw)
    (s : Variable → Word) (hs : SolFun cw s) :
    ∃ r, solve cw = some (some r) ∧
      assignment_complete cw r = true ∧ ConsProp cw r := by
  obtain ⟨p, hp, r, hr⟩ := backtrack_complete hwf (lengthOk_solveDomains cw) hs
    (solveDomains_preserves_sol hs) (unassigned cw []) [] le_rfl (AOK_nil cw)
    List.nodup_nil (fun e he => absurd he (List.not_mem_nil e))
  obtain ⟨p2, hp2, hprop2⟩ := backtrack_sound hwf (lengthOk_solveDomains cw)
    (unassigned cw []) [] le_rfl (AOK_nil cw) List.nodup_nil (ConsProp_nil cw)
  have hpp : p2 = p := by
    have := hp2.symm.trans hp
    injection this
  subst hpp
  refine ⟨r, ?_, hprop2 r hr⟩
  unfold solve
  rw [hp]
  simp [hr]

/-- A concrete satisfying solution function for the example puzzle `exCw`. -/
def exS : Variable → Word := fun v => if v = vA then ['a', 'b'] else ['b', 'c']

theorem claim_C2_witness :
    WF exCw ∧ SolFun exCw exS ∧
      ∃ r, solve exCw = some (some r) ∧
        assignment_complete exCw r = true ∧ ConsProp exCw r :=
  ⟨by decide, by decide, claim_C2_solve_complete (by decide) exS (by decide)⟩
